import Mathlib

/-!
# Verification of the permissioned-ledger core

A shallow embedding, in Lean 4, of the blockchain core of this repository:
the SHA-256 primitive, the Merkle engine (`blockchain/core/merkle.py`), the
transaction model (`blockchain/core/transaction.py`), the state store
(`blockchain/core/state.py`), the multi-level permission system
(`blockchain/permissions/multi_level.py`), the Tendermint-style consensus
checks (`blockchain/consensus/tendermint.py`, `consensus/base.py`) and the
chain engine (`blockchain/core/blockchain.py`, the permission-aware module).

Modelling conventions:
* Python `float` money amounts are embedded as exact rationals (`Rat`), and
  Python `int` values as `Int`/`Nat`.
* Wall-clock reads (`time.time()`) are passed in as an explicit `now`
  parameter.
* Python dictionaries are embedded as insertion-ordered association lists;
  in-place mutation of an object held in a dictionary is embedded as an
  update of the first matching entry.
* The canonical-JSON digests of transactions and of the whole state are kept
  as parameters (`D`, `AH`); the JSON serializer itself is not re-implemented.
  The SHA-256 combine steps of the Merkle engine are embedded concretely.
-/

namespace SHA256

/-- The 32-bit modulus used by SHA-256 word arithmetic. -/
def M32 : Nat := 4294967296

/-- Right rotation of a 32-bit word. -/
def rotr (n x : Nat) : Nat :=
  ((x >>> n) ||| (x <<< (32 - n))) % M32

/-- Logical right shift. -/
def shr (n x : Nat) : Nat := x >>> n

/-- 32-bit modular addition. -/
def add32 (a b : Nat) : Nat := (a + b) % M32

/-- SHA-256 initial hash values. -/
def initHash : List Nat :=
  [1779033703, 3144134277, 1013904242, 2773480762,
   1359893119, 2600822924, 528734635, 1541459225]

/-- SHA-256 round constants. -/
def roundConsts : List Nat :=
  [1116352408, 1899447441, 3049323471, 3921009573, 961987163, 1508970993,
   2453635748, 2870763221, 3624381080, 310598401, 607225278, 1426881987,
   1925078388, 2162078206, 2614888103, 3248222580, 3835390401, 4022224774,
   264347078, 604807628, 770255983, 1249150122, 1555081692, 1996064986,
   2554220882, 2821834349, 2952996808, 3210313671, 3336571891, 3584528711,
   113926993, 338241895, 666307205, 773529912, 1294757372, 1396182291,
   1695183700, 1986661051, 2177026350, 2456956037, 2730485921, 2820302411,
   3259730800, 3345764771, 3516065817, 3600352804, 4094571909, 275423344,
   430227734, 506948616, 659060556, 883997877, 958139571, 1322822218,
   1537002063, 1747873779, 1955562222, 2024104815, 2227730452, 2361852424,
   2428436474, 2756734187, 3204031479, 3329325298]

/-- Pad a byte-level message: append `0x80`, zeros, and the 64-bit big-endian
bit length, reaching a multiple of 64 bytes. -/
def pad (msg : List Nat) : List Nat :=
  let len := msg.length
  let bitLen := len * 8
  let zeros := (55 + 64 - (len % 64)) % 64
  let lenBytes := (List.range 8).map (fun i => (bitLen >>> ((7 - i) * 8)) % 256)
  msg ++ [0x80] ++ List.replicate zeros 0 ++ lenBytes

/-- Split padded bytes into 64-byte chunks (fuel-driven structural recursion;
fuel `bs.length` suffices since every step consumes at least one byte). -/
def chunksGo : Nat → List Nat → List (List Nat)
  | _, [] => []
  | 0, _ :: _ => []
  | fuel + 1, b :: bs => ((b :: bs).take 64) :: chunksGo fuel ((b :: bs).drop 64)

/-- Split a padded byte list into 64-byte chunks. -/
def chunks (bs : List Nat) : List (List Nat) :=
  chunksGo bs.length bs

/-- The sixteen big-endian 32-bit words of a 64-byte chunk. -/
def toWords (chunk : List Nat) : List Nat :=
  (List.range 16).map (fun i =>
    (chunk.getD (4*i) 0) <<< 24 + (chunk.getD (4*i+1) 0) <<< 16 +
    (chunk.getD (4*i+2) 0) <<< 8 + chunk.getD (4*i+3) 0)

/-- Message-schedule extension: append `n` further words to the schedule. -/
def extendGo : Nat → List Nat → List Nat
  | 0, w => w
  | n + 1, w =>
    let i := w.length
    let w15 := w.getD (i - 15) 0
    let w2 := w.getD (i - 2) 0
    let s0 := (rotr 7 w15) ^^^ (rotr 18 w15) ^^^ (shr 3 w15)
    let s1 := (rotr 17 w2) ^^^ (rotr 19 w2) ^^^ (shr 10 w2)
    let nw := (w.getD (i - 16) 0 + s0 + w.getD (i - 7) 0 + s1) % M32
    extendGo n (w ++ [nw])

/-- The eight working registers of the compression function. -/
structure Regs where
  a : Nat
  b : Nat
  c : Nat
  d : Nat
  e : Nat
  f : Nat
  g : Nat
  h : Nat

/-- One compression round. -/
def roundStep (w : List Nat) (i : Nat) (r : Regs) : Regs :=
  let bigS1 := (rotr 6 r.e) ^^^ (rotr 11 r.e) ^^^ (rotr 25 r.e)
  let ch := (r.e &&& r.f) ^^^ ((M32 - 1 - r.e) &&& r.g)
  let temp1 := (r.h + bigS1 + ch + roundConsts.getD i 0 + w.getD i 0) % M32
  let bigS0 := (rotr 2 r.a) ^^^ (rotr 13 r.a) ^^^ (rotr 22 r.a)
  let maj := (r.a &&& r.b) ^^^ (r.a &&& r.c) ^^^ (r.b &&& r.c)
  let temp2 := (bigS0 + maj) % M32
  { a := (temp1 + temp2) % M32, b := r.a, c := r.b, d := r.c,
    e := (r.d + temp1) % M32, f := r.e, g := r.f, h := r.g }

/-- Run the remaining `n` of the 64 compression rounds. -/
def roundsGo (w : List Nat) : Nat → Regs → Regs
  | 0, r => r
  | n + 1, r => roundsGo w n (roundStep w (64 - (n + 1)) r)

/-- Compress one 64-byte chunk into the running hash state. -/
def compress (hs : List Nat) (chunk : List Nat) : List Nat :=
  let w := extendGo 48 (toWords chunk)
  let r0 : Regs := { a := hs.getD 0 0, b := hs.getD 1 0, c := hs.getD 2 0, d := hs.getD 3 0,
                     e := hs.getD 4 0, f := hs.getD 5 0, g := hs.getD 6 0, h := hs.getD 7 0 }
  let r := roundsGo w 64 r0
  [add32 (hs.getD 0 0) r.a, add32 (hs.getD 1 0) r.b, add32 (hs.getD 2 0) r.c,
   add32 (hs.getD 3 0) r.d, add32 (hs.getD 4 0) r.e, add32 (hs.getD 5 0) r.f,
   add32 (hs.getD 6 0) r.g, add32 (hs.getD 7 0) r.h]

/-- Lowercase hexadecimal digit. -/
def hexDigit (n : Nat) : Char :=
  if n < 10 then Char.ofNat (48 + n) else Char.ofNat (87 + n)

/-- A 32-bit word as eight lowercase hex characters. -/
def wordToHex (w : Nat) : List Char :=
  (List.range 8).map (fun i => hexDigit ((w >>> ((7 - i) * 4)) % 16))

/-- SHA-256 of a byte list, rendered as the usual lowercase hex digest. -/
def sha256Bytes (msg : List Nat) : String :=
  let hs := (chunks (pad msg)).foldl compress initHash
  ⟨hs.flatMap wordToHex⟩

/-- `hashlib.sha256(s.encode()).hexdigest()` for an ASCII string `s` (every
string the core hashes is ASCII: hex digests and JSON of hex fields). -/
def sha256Hex (s : String) : String :=
  sha256Bytes (s.data.map Char.toNat)

end SHA256

namespace Merkle

/-- Which side a proof sibling sits on (`'left'` / `'right'` in the source). -/
inductive Side where
  | left
  | right
deriving DecidableEq, Repr

/-- One bottom-up level step of `MerkleTree._build_tree`, on node hashes:
pairs are combined as `H(left ++ right)`, and a lone final node is paired
with itself. `H` stands for `sha256(utf8(·)).hexdigest()`. -/
def levelUp (H : String → String) : List String → List String
  | [] => []
  | [a] => [H (a ++ a)]
  | a :: b :: rest => H (a ++ b) :: levelUp H rest

/-- The `while len(nodes) > 1` loop of `_build_tree`, fuel-driven; fuel
`hs.length` always suffices because each level at least halves the count. -/
def rootGo (H : String → String) : Nat → List String → String
  | 0, hs => hs.getD 0 ""
  | fuel + 1, hs => if hs.length ≤ 1 then hs.getD 0 "" else rootGo H fuel (levelUp H hs)

/-- `MerkleTree(data_list).get_root()`: leaf hashes are `H leaf`, then levels
are combined bottom-up. -/
def getRoot (H : String → String) (leaves : List String) : String :=
  rootGo H leaves.length (leaves.map H)

/-- The per-level proof contribution of `MerkleTree.get_proof`: for the node
currently at index `i`, the sibling hash and its side. An odd right node
contributes its left sibling; an even node contributes the hash to its right,
which is its own hash when it is the lone last node of the level. -/
def proofStep (hs : List String) (i : Nat) : String × Side :=
  if i % 2 = 1 then (hs.getD (i - 1) "", Side.left)
  else if i + 1 < hs.length then (hs.getD (i + 1) "", Side.right)
  else (hs.getD i "", Side.right)

/-- The level loop of `MerkleTree.get_proof`, on node-hash levels. -/
def proofGo (H : String → String) : Nat → List String → Nat → List (String × Side)
  | 0, _, _ => []
  | fuel + 1, hs, i =>
    if hs.length ≤ 1 then []
    else proofStep hs i :: proofGo H fuel (levelUp H hs) (i / 2)

/-- `MerkleTree(leaves).get_proof(index)`. -/
def getProof (H : String → String) (leaves : List String) (index : Nat) : List (String × Side) :=
  proofGo H leaves.length (leaves.map H) index

/-- The fold inside `MerkleTree.verify_proof`: combine the running hash with
each sibling on its recorded side. -/
def foldProof (H : String → String) (cur : String) (proof : List (String × Side)) : String :=
  proof.foldl (fun c p => match p.2 with
    | Side.left => H (p.1 ++ c)
    | Side.right => H (c ++ p.1)) cur

/-- `MerkleTree.verify_proof(data, proof, root_hash)`. -/
def verifyProof (H : String → String) (data : String) (proof : List (String × Side))
    (rootHash : String) : Bool :=
  foldProof H (H data) proof == rootHash

/-- `build_merkle_tree_from_hashes(hashes).get_root()`: an empty input list is
replaced by the single leaf `sha256(b"").hexdigest()` before the tree (which
hashes every leaf again) is built. -/
def buildFromHashesRoot (hashes : List String) : String :=
  let hs := if hashes.isEmpty then [SHA256.sha256Hex ""] else hashes
  getRoot SHA256.sha256Hex hs

/-- The list-padding step of `Block._calculate_merkle_root`: an odd-length
level duplicates its last element. -/
def padEven (hs : List String) : List String :=
  if hs.length % 2 == 1 then hs ++ [hs.getD (hs.length - 1) ""] else hs

/-- The pairing step of `Block._calculate_merkle_root` over an even-length
level. -/
def pairUp (H : String → String) : List String → List String
  | a :: b :: rest => H (a ++ b) :: pairUp H rest
  | _ => []

/-- The level loop of `Block._calculate_merkle_root`, fuel-driven. -/
def blockRootGo (H : String → String) : Nat → List String → String
  | 0, hs => hs.getD 0 ""
  | fuel + 1, hs =>
    if hs.length ≤ 1 then hs.getD 0 ""
    else blockRootGo H fuel (pairUp H (padEven hs))

/-- `Block._calculate_merkle_root` over the transactions' digest strings: the
empty transaction list yields `sha256(b"").hexdigest()`; otherwise the digest
strings are combined pairwise (duplicating the last on odd levels) without
re-hashing the leaves. `H` is instantiated with SHA-256 by the engine. -/
def calculateMerkleRoot (H : String → String) (txHashes : List String) : String :=
  if txHashes.isEmpty then H ""
  else blockRootGo H txHashes.length txHashes

end Merkle

namespace Util

/-- Lookup in an insertion-ordered association list (Python `dict` access). -/
def alookup {α : Type} : List (String × α) → String → Option α
  | [], _ => none
  | (k, v) :: m, key => if k = key then some v else alookup m key

/-- Write to an insertion-ordered association list: replace the first entry
with the key, or append a new entry (Python `dict` assignment). -/
def aset {α : Type} : List (String × α) → String → α → List (String × α)
  | [], key, v => [(key, v)]
  | (k, w) :: m, key, v => if k = key then (k, v) :: m else (k, w) :: aset m key v

/-- Lexicographic code-point comparison of character lists (Python `<` on
strings restricted to the code points the core uses). -/
def charListLt : List Char → List Char → Bool
  | [], [] => false
  | [], _ :: _ => true
  | _ :: _, [] => false
  | a :: as, b :: bs =>
    if a.toNat < b.toNat then true
    else if b.toNat < a.toNat then false
    else charListLt as bs

/-- Python string `<`. -/
def strLt (a b : String) : Bool := charListLt a.data b.data

/-- Stable insertion into a list sorted by `le` (keeps existing equal keys
first, as Python's stable sort does). -/
def insertBy {α : Type} (le : α → α → Bool) (a : α) : List α → List α
  | [] => [a]
  | x :: xs => if le x a then x :: insertBy le a xs else a :: x :: xs

/-- Stable insertion sort, embedding Python `sorted(..., key=...)`. -/
def sortBy {α : Type} (le : α → α → Bool) : List α → List α
  | [] => []
  | x :: xs => insertBy le x (sortBy le xs)

end Util

/-- The transaction kind tags of `TransactionType`. -/
inductive TransactionType where
  | transfer
  | deployContract
  | callContract
  | validatorUpdate
  | permissionGrant
  | permissionRevoke
  | genesis
  | custom
deriving DecidableEq, Repr

/-- `TransactionInput`: source address, optional amount, optional data map. -/
structure TransactionInput where
  fromAddress : String
  amount : Option Rat
  dataMap : List (String × String)
deriving DecidableEq, Repr

/-- `TransactionOutput`: destination address, optional amount, optional data
map. -/
structure TransactionOutput where
  toAddress : String
  amount : Option Rat
  dataMap : List (String × String)
deriving DecidableEq, Repr

/-- The projection of the transaction `data` dictionary onto the keys the
core reads; `none` embeds key absence. -/
structure TxData where
  targetAddress : Option String
  action : Option String
  permission : Option String
  newLevel : Option Int
  securityLevel : Option Int
  validatorAddress : Option String
  pubKey : Option String
  power : Option Int
deriving DecidableEq, Repr

/-- The empty `data` dictionary. -/
def TxData.empty : TxData :=
  ⟨none, none, none, none, none, none, none, none⟩

/-- The digest-relevant fields of a transaction: `Transaction.hash()` covers
exactly {type, sender, inputs, outputs, data, nonce, timestamp} and excludes
signature and public key. -/
structure TxCore where
  txType : TransactionType
  sender : String
  inputs : List TransactionInput
  outputs : List TransactionOutput
  data : TxData
  nonce : Int
  timestamp : Int
deriving DecidableEq, Repr

/-- `Transaction`: the digest-relevant fields plus signature, attached public
key, and the `_hash` memo field (`none` embeds Python `None`). -/
structure Transaction where
  txType : TransactionType
  sender : String
  inputs : List TransactionInput
  outputs : List TransactionOutput
  data : TxData
  nonce : Int
  timestamp : Int
  signature : String
  publicKey : String
  hashCache : Option String
deriving DecidableEq, Repr

/-- The digest-relevant projection of a transaction. -/
def Transaction.core (t : Transaction) : TxCore :=
  ⟨t.txType, t.sender, t.inputs, t.outputs, t.data, t.nonce, t.timestamp⟩

/-- `Transaction.hash()` with its memoization: an absent or empty `_hash`
recomputes and stores the canonical digest `D` of the digest-relevant fields
(`D` stands for SHA-256 over the sorted-key JSON, kept abstract); a non-empty
stored value is returned unchanged. Returns the digest and the transaction
with its updated memo field. -/
def Transaction.hashRun (D : TxCore → String) (t : Transaction) : String × Transaction :=
  match t.hashCache with
  | some h => if h.isEmpty then (D t.core, { t with hashCache := some (D t.core) }) else (h, t)
  | none => (D t.core, { t with hashCache := some (D t.core) })

/-- The value `Transaction.hash()` returns, as a pure function of the
transaction value (the memo write is value-preserving). -/
def txHashVal (D : TxCore → String) (t : Transaction) : String :=
  match t.hashCache with
  | some h => if h.isEmpty then D t.core else h
  | none => D t.core

/-- `Transaction.verify_signature(public_key=None)`: choose the argument key
unless it is falsy, fall back to the stored key, fail on an empty key, and
verify the signature against `self.hash()`. `V msg sig key` stands for
`verify_signature` from `crypto/signatures.py`, kept abstract. -/
def Transaction.verifySignatureRun (D : TxCore → String) (V : String → String → String → Bool)
    (t : Transaction) (publicKey : Option String) : Bool × Transaction :=
  let keyToUse := match publicKey with
    | some k => if k.isEmpty then t.publicKey else k
    | none => t.publicKey
  if keyToUse.isEmpty then (false, t)
  else
    let (msg, t') := Transaction.hashRun D t
    (V msg t.signature keyToUse, t')

/-- In-place tampering of `outputs[0].amount` after construction (the mutation
named by the memoization claim). -/
def setFirstOutputAmount (t : Transaction) (amt : Rat) : Transaction :=
  { t with outputs := match t.outputs with
      | [] => []
      | o :: rest => { o with amount := some amt } :: rest }

/-- `AccountState`: materialized with zero balance, zero nonce, empty storage
and no permissions. -/
structure AccountState where
  address : String
  balance : Rat
  nonce : Int
  storage : List (String × String)
  permissions : List String
deriving DecidableEq, Repr

/-- A freshly materialized account. -/
def mkAccount (address : String) : AccountState :=
  ⟨address, 0, 0, [], []⟩

/-- `ValidatorState`. -/
structure ValidatorState where
  address : String
  pubKey : String
  power : Int
  name : String
  active : Bool
  totalBlocksProposed : Nat
  totalBlocksSigned : Nat
deriving DecidableEq, Repr

/-- `BlockchainState`. -/
structure BlockchainState where
  chainId : String
  accounts : List (String × AccountState)
  validators : List (String × ValidatorState)
  height : Int
  lastBlockHash : String
  appHash : String
  customState : List (String × String)
deriving DecidableEq, Repr

namespace BlockchainState

/-- `get_account`: return the account, materializing a fresh one on first
reference (this mutates the state, so the updated state is returned too). -/
def getAccount (s : BlockchainState) (address : String) : AccountState × BlockchainState :=
  match Util.alookup s.accounts address with
  | some a => (a, s)
  | none =>
    let a := mkAccount address
    (a, { s with accounts := Util.aset s.accounts address a })

/-- Update the account object stored under a key (embeds in-place mutation of
the object returned by `get_account`). -/
def updateAccount (s : BlockchainState) (address : String)
    (f : AccountState → AccountState) : BlockchainState :=
  match Util.alookup s.accounts address with
  | some a => { s with accounts := Util.aset s.accounts address (f a) }
  | none => s

/-- `get_validator`. -/
def getValidator (s : BlockchainState) (address : String) : Option ValidatorState :=
  Util.alookup s.validators address

/-- `add_validator` (idempotent upsert keyed by address). -/
def addValidator (s : BlockchainState) (v : ValidatorState) : BlockchainState :=
  { s with validators := Util.aset s.validators v.address v }

/-- `remove_validator`: deactivate without deleting. -/
def removeValidator (s : BlockchainState) (address : String) : BlockchainState :=
  match Util.alookup s.validators address with
  | some v => { s with validators := Util.aset s.validators address { v with active := false } }
  | none => s

/-- `get_active_validators`. -/
def getActiveValidators (s : BlockchainState) : List ValidatorState :=
  (s.validators.map (fun p => p.2)).filter (fun v => v.active)

/-- `transfer(from_address, to_address, amount)`: materialize both accounts,
fail when the sender balance is below the amount, otherwise debit, credit and
bump the sender nonce, in the source's mutation order (so a self-transfer
nets to zero, as the aliased Python objects do). -/
def transfer (s : BlockchainState) (fromAddress toAddress : String) (amount : Rat) :
    Bool × BlockchainState :=
  let (sender, s1) := getAccount s fromAddress
  let (_, s2) := getAccount s1 toAddress
  if sender.balance < amount then (false, s2)
  else
    let s3 := updateAccount s2 fromAddress (fun a => { a with balance := a.balance - amount })
    let s4 := updateAccount s3 toAddress (fun a => { a with balance := a.balance + amount })
    let s5 := updateAccount s4 fromAddress (fun a => { a with nonce := a.nonce + 1 })
    (true, s5)

/-- `grant_permission` (materializes the account, appends the tag if new). -/
def grantPermission (s : BlockchainState) (address permission : String) : BlockchainState :=
  let (a, s1) := getAccount s address
  if a.permissions.contains permission then s1
  else updateAccount s1 address (fun acc => { acc with permissions := acc.permissions ++ [permission] })

/-- `revoke_permission` (materializes the account, removes the first
occurrence of the tag, as `list.remove` does). -/
def revokePermission (s : BlockchainState) (address permission : String) : BlockchainState :=
  let (a, s1) := getAccount s address
  if a.permissions.contains permission then
    updateAccount s1 address (fun acc => { acc with permissions := acc.permissions.erase permission })
  else s1

/-- `has_permission` (materializes the account, so the state is returned). -/
def hasPermission (s : BlockchainState) (address permission : String) : Bool × BlockchainState :=
  let (a, s1) := getAccount s address
  (a.permissions.contains permission, s1)

/-- `calculate_app_hash`: store the canonical state digest. `AH` stands for
SHA-256 over the sorted-key JSON serialization of `to_dict()`, kept abstract. -/
def calculateAppHash (AH : BlockchainState → String) (s : BlockchainState) : BlockchainState :=
  { s with appHash := AH s }

/-- The sum of all account balances. -/
def sumBalances (s : BlockchainState) : Rat :=
  (s.accounts.map (fun p => p.2.balance)).sum

end BlockchainState

namespace MLS

/-- A value in an audit-log `details` dictionary. -/
inductive AVal where
  | s (v : String)
  | i (v : Int)
  | b (v : Bool)
deriving DecidableEq, Repr

/-- One audit-log entry (`_log_action`): action tag, actor, details, and the
wall-clock timestamp. -/
structure AuditEntry where
  action : String
  actor : String
  details : List (String × AVal)
  timestamp : Int
deriving DecidableEq, Repr

/-- A classified `DataItem` (its opaque `content` is embedded as a string;
`accessed_by` is the reader log of `(accessor, timestamp)` records). -/
structure DataItem where
  dataId : String
  content : String
  securityLevel : Int
  owner : String
  metadata : List (String × String)
  createdAt : Int
  accessedBy : List (String × Int)
deriving DecidableEq, Repr

/-- `DataItem.record_access`. -/
def DataItem.recordAccess (d : DataItem) (accessor : String) (now : Int) : DataItem :=
  { d with accessedBy := d.accessedBy ++ [(accessor, now)] }

/-- `MultiLevelPermissionSystem`: the constructor pins the creator at
`max_level = num_levels` and `min_level = default_level = 1` (inlined below);
the per-level classification names are not modelled (no claim reads them). -/
structure System where
  numLevels : Int
  creatorAddress : String
  userLevels : List (String × Int)
  dataStore : List (String × DataItem)
  auditLog : List AuditEntry
deriving DecidableEq, Repr

/-- `_log_action`: append to the audit trail. -/
def logAction (sys : System) (action actor : String) (details : List (String × AVal))
    (now : Int) : System :=
  { sys with auditLog := sys.auditLog ++ [⟨action, actor, details, now⟩] }

/-- The effective permission level of a user: the stored level, or the
default level 1 for a user not yet materialized. -/
def userLevel (sys : System) (address : String) : Int :=
  (Util.alookup sys.userLevels address).getD 1

/-- `get_user_level`: return the stored level; a previously unseen user is
materialized at the default level 1 with a `user_registered` audit entry. -/
def getUserLevelS (now : Int) (sys : System) (address : String) : Int × System :=
  match Util.alookup sys.userLevels address with
  | some l => (l, sys)
  | none =>
    let sys1 := { sys with userLevels := Util.aset sys.userLevels address 1 }
    (1, logAction sys1 "user_registered" address
      [("level", AVal.i 1), ("auto_assigned", AVal.b true)] now)

/-- `promote_user(promoter_address, target_address, new_level)`, in the
source's check order: level bounds, strict raise over the target's current
level, then the creator bypass, then promoter authority (strictly above the
target and not promoting beyond the promoter's own level). -/
def promoteUser (now : Int) (sys : System) (promoterAddress targetAddress : String)
    (newLevel : Int) : Bool × System :=
  if newLevel < 1 ∨ newLevel > sys.numLevels then (false, sys)
  else
    let (promoterLevel, s1) := getUserLevelS now sys promoterAddress
    let (targetCurrentLevel, s2) := getUserLevelS now s1 targetAddress
    if newLevel ≤ targetCurrentLevel then (false, s2)
    else if promoterAddress = sys.creatorAddress then
      let s3 := { s2 with userLevels := Util.aset s2.userLevels targetAddress newLevel }
      (true, logAction s3 "promote" promoterAddress
        [("target", AVal.s targetAddress), ("old_level", AVal.i targetCurrentLevel),
         ("new_level", AVal.i newLevel), ("by_creator", AVal.b true)] now)
    else if promoterLevel ≤ targetCurrentLevel then (false, s2)
    else if newLevel > promoterLevel then (false, s2)
    else
      let s3 := { s2 with userLevels := Util.aset s2.userLevels targetAddress newLevel }
      (true, logAction s3 "promote" promoterAddress
        [("target", AVal.s targetAddress), ("old_level", AVal.i targetCurrentLevel),
         ("new_level", AVal.i newLevel)] now)

/-- `can_access_data`: user level dominates the data's security level
(`get_user_level` may materialize the user, so the state is returned). -/
def canAccessData (now : Int) (sys : System) (userAddress : String) (securityLevel : Int) :
    Bool × System :=
  let (ul, s1) := getUserLevelS now sys userAddress
  (securityLevel ≤ ul, s1)

/-- `access_data(user_address, data_id)`: an unknown id returns `None`
without auditing; a denial audits `access_denied`; a grant records the reader
on the item and audits `access_data`, returning the content. -/
def accessData (now : Int) (sys : System) (userAddress dataId : String) :
    Option String × System :=
  match Util.alookup sys.dataStore dataId with
  | none => (none, sys)
  | some dataItem =>
    let (ok, s1) := canAccessData now sys userAddress dataItem.securityLevel
    if ¬ ok then
      let (ul, s2) := getUserLevelS now s1 userAddress
      (none, logAction s2 "access_denied" userAddress
        [("data_id", AVal.s dataId), ("required_level", AVal.i dataItem.securityLevel),
         ("user_level", AVal.i ul)] now)
    else
      let item1 := dataItem.recordAccess userAddress now
      let s2 := { s1 with dataStore := Util.aset s1.dataStore dataId item1 }
      (some dataItem.content, logAction s2 "access_data" userAddress
        [("data_id", AVal.s dataId), ("security_level", AVal.i dataItem.securityLevel)] now)

end MLS

/-- `Block`: header fields plus body. `merkle_root` is computed from the
transaction digests at construction and `hash` is set by `finalize`; both are
carried as fields here and re-derivation is checked by `verifyMerkleRoot`. -/
structure Block where
  height : Int
  previousHash : String
  transactions : List Transaction
  validatorAddress : String
  timestamp : Int
  version : Nat
  consensusData : List (String × String)
  merkleRoot : String
  validatorSignature : String
  hash : String
deriving DecidableEq, Repr

/-- `Block.verify_merkle_root`: recompute the root over `tx.hash()` of the
carried transactions (memoized digests included) and compare. -/
def Block.verifyMerkleRoot (D : TxCore → String) (b : Block) : Bool :=
  Merkle.calculateMerkleRoot SHA256.sha256Hex (b.transactions.map (txHashVal D)) == b.merkleRoot

namespace Consensus

/-- `ConsensusVote`. -/
structure ConsensusVote where
  blockHash : String
  height : Int
  validatorAddress : String
  signature : String
  timestamp : Int
deriving DecidableEq, Repr

/-- `ConsensusRound`. -/
structure ConsensusRound where
  height : Int
  roundNum : Nat
  votes : List ConsensusVote
  proposedBlock : Option Block
  startedAt : Option Int
  completedAt : Option Int
deriving DecidableEq, Repr

/-- `ConsensusRound.add_vote`. -/
def ConsensusRound.addVote (r : ConsensusRound) (v : ConsensusVote) : ConsensusRound :=
  { r with votes := r.votes ++ [v] }

/-- `ConsensusRound.get_vote_count`. -/
def ConsensusRound.getVoteCount (r : ConsensusRound) : Nat :=
  r.votes.length

/-- `ConsensusRound.has_supermajority`: at least `2n//3 + 1` votes. -/
def ConsensusRound.hasSupermajority (r : ConsensusRound) (totalValidators : Nat) : Bool :=
  r.getVoteCount ≥ 2 * totalValidators / 3 + 1

/-- The two Tendermint configuration entries `validate_block` and
`select_transactions` read (defaults from the constructor). -/
structure TendermintConfig where
  blockTime : Int := 5
  maxBlockSize : Nat := 1000
deriving DecidableEq, Repr

/-- Ordering of validators by address (Python `sorted(..., key=lambda v:
v.address)`). -/
def sortValidatorsByAddress (vs : List ValidatorState) : List ValidatorState :=
  Util.sortBy (fun u v => ¬ Util.strLt v.address u.address) vs

/-- The cumulative-power walk inside `TendermintBFT.select_proposer`. -/
def walkProposer (target : Int) (cum : Int) : List ValidatorState → Option String
  | [] => none
  | v :: rest =>
    let cum1 := cum + v.power
    if cum1 > target then some v.address else walkProposer target cum1 rest

/-- `TendermintBFT.select_proposer(height, validators)`: weighted round-robin
over validators sorted by address, targeting `height % total_power`, with the
first (unsorted) validator as fallback. A zero total power makes the source
raise `ZeroDivisionError`; that case is embedded as `none`. -/
def selectProposer (height : Int) (validators : List ValidatorState) : Option String :=
  if validators.isEmpty then none
  else
    let totalPower := (validators.map (fun v => v.power)).sum
    if totalPower = 0 then none
    else
      let target := height % totalPower
      match walkProposer target 0 (sortValidatorsByAddress validators) with
      | some address => some address
      | none => some ((validators.headD (mkDefaultValidator)).address)
where
  mkDefaultValidator : ValidatorState := ⟨"", "", 0, "", true, 0, 0⟩

/-- `TendermintBFT.validate_block(block, state)`: the proposer must be a
known active validator and match `select_proposer` over the active set; the
block must be at most `2 * block_time` old and within `max_block_size`.
No vote or round data is consulted. -/
def tendermintValidateBlock (cfg : TendermintConfig) (now : Int) (b : Block)
    (s : BlockchainState) : Bool :=
  match BlockchainState.getValidator s b.validatorAddress with
  | none => false
  | some v =>
    if ¬ v.active then false
    else
      match selectProposer b.height (BlockchainState.getActiveValidators s) with
      | none => false
      | some expectedProposer =>
        if b.validatorAddress ≠ expectedProposer then false
        else if b.timestamp < now - cfg.blockTime * 2 then false
        else if b.transactions.length > cfg.maxBlockSize then false
        else true

end Consensus

namespace Engine

open BlockchainState

/-- The chain engine's owned data: block list, pending pool, state, and the
optional multi-level permission system. The consensus plugin is passed to the
operations that consult it. -/
structure Chain where
  chainId : String
  blocks : List Block
  pending : List Transaction
  state : BlockchainState
  permissionSystem : Option MLS.System
deriving DecidableEq, Repr

/-- The `permission_map` of `_check_transaction_permissions`: the flat tag
each transaction kind requires (`.get` on the dictionary). -/
def requiredPermissionFor : TransactionType → Option String
  | TransactionType.transfer => some "can_transfer"
  | TransactionType.validatorUpdate => some "can_update_validators"
  | TransactionType.permissionGrant => some "can_grant_permissions"
  | TransactionType.permissionRevoke => some "can_revoke_permissions"
  | _ => none

/-- `_check_transaction_permissions`: the per-kind flat tag must be held by
the sender, and, when the multi-level system is enabled and the transaction
carries `data.security_level`, the sender's clearance must dominate it (the
clearance read may materialize the sender in the MLS, so the chain is
returned). -/
def checkTransactionPermissions (now : Int) (c : Chain) (t : Transaction) : Bool × Chain :=
  let step1 : Bool × Chain := match requiredPermissionFor t.txType with
    | none => (true, c)
    | some p =>
      let (hp, s1) := hasPermission c.state t.sender p
      (hp, { c with state := s1 })
  if ¬ step1.1 then (false, step1.2)
  else
    let c1 := step1.2
    match c1.permissionSystem with
    | none => (true, c1)
    | some ps =>
      match t.data.securityLevel with
      | none => (true, c1)
      | some requiredLevel =>
        let (ul, ps1) := MLS.getUserLevelS now ps t.sender
        if ul < requiredLevel then (false, { c1 with permissionSystem := some ps1 })
        else (true, { c1 with permissionSystem := some ps1 })

/-- `_verify_transaction`: the signature branch is a no-op in the source
(`if transaction.signature: pass`, with a TODO to implement verification), so
only the nonce floor and the permission checks decide admission. The nonce
read materializes the sender's account. -/
def verifyTransaction (now : Int) (c : Chain) (t : Transaction) : Bool × Chain :=
  let (account, s1) := getAccount c.state t.sender
  let c1 := { c with state := s1 }
  if t.nonce < account.nonce then (false, c1)
  else checkTransactionPermissions now c1 t

/-- `add_transaction`: verify, reject a digest already pending, else append
to the pending pool. -/
def addTransaction (D : TxCore → String) (now : Int) (c : Chain) (t : Transaction) :
    Bool × Chain :=
  let (ok, c1) := verifyTransaction now c t
  if ¬ ok then (false, c1)
  else if c1.pending.any (fun tx => txHashVal D tx == txHashVal D t) then (false, c1)
  else (true, { c1 with pending := c1.pending ++ [t] })

/-- The per-transaction loop of `_verify_block` (state mutations from account
materialization accumulate across the loop). -/
def verifyTxs (now : Int) : Chain → List Transaction → Bool × Chain
  | c, [] => (true, c)
  | c, t :: rest =>
    let (ok, c1) := verifyTransaction now c t
    if ¬ ok then (false, c1) else verifyTxs now c1 rest

/-- `_verify_block`: sequential height, matching previous hash, re-derived
merkle root, and re-admission of every included transaction. An empty block
list would make the source crash on `blocks[-1]`; that unreachable case is
embedded as a rejection. -/
def verifyBlock (D : TxCore → String) (now : Int) (c : Chain) (b : Block) : Bool × Chain :=
  if b.height ≠ (c.blocks.length : Int) - 1 + 1 then (false, c)
  else match c.blocks.getLast? with
    | none => (false, c)
    | some lastBlock =>
      if b.previousHash ≠ lastBlock.hash then (false, c)
      else if ¬ b.verifyMerkleRoot D then (false, c)
      else verifyTxs now c b.transactions

/-- `_execute_transfer`: a no-op unless both lists are non-empty; a missing
`outputs[0].amount` raises (`float < None` is a `TypeError`), and a failed
`state.transfer` raises `Transfer failed`. The first component is `false`
exactly when the source raises; the returned state carries the mutations
performed before the raise (account materialization). -/
def executeTransfer (st : BlockchainState) (t : Transaction) : Bool × BlockchainState :=
  match t.inputs, t.outputs with
  | inp :: _, outp :: _ =>
    match outp.amount with
    | none =>
      let (_, s1) := getAccount st inp.fromAddress
      let (_, s2) := getAccount s1 outp.toAddress
      (false, s2)
    | some amount =>
      let (ok, s1) := transfer st inp.fromAddress outp.toAddress amount
      (ok, s1)
  | _, _ => (true, st)

/-- `_execute_validator_update`: `data['validator_address']` and
`data['action']` raise `KeyError` when absent; `add` upserts a validator with
defaulted public key and power, `remove` deactivates, anything else is a
no-op. -/
def executeValidatorUpdate (st : BlockchainState) (t : Transaction) : Bool × BlockchainState :=
  match t.data.validatorAddress with
  | none => (false, st)
  | some validatorAddr =>
    match t.data.action with
    | none => (false, st)
    | some action =>
      if action = "add" then
        (true, addValidator st ⟨validatorAddr, t.data.pubKey.getD "", t.data.power.getD 10,
          "", true, 0, 0⟩)
      else if action = "remove" then (true, removeValidator st validatorAddr)
      else (true, st)

/-- `_execute_permission_grant` (permission-aware module): a missing
`data['target_address']` raises; a flat grant applies when `data.permission`
is present and the action (default `grant`) is `grant`; independently, a
present `data.new_level` attempts an MLS promotion of the target by the
transaction sender, whose success or denial is only logged. -/
def executePermissionGrant (now : Int) (st : BlockchainState) (ps : Option MLS.System)
    (t : Transaction) : Bool × BlockchainState × Option MLS.System :=
  match t.data.targetAddress with
  | none => (false, st, ps)
  | some target =>
    let action := t.data.action.getD "grant"
    let st1 := match t.data.permission with
      | some permission => if action = "grant" then grantPermission st target permission else st
      | none => st
    match ps, t.data.newLevel with
    | some sys, some newLevel =>
      let (_, sys1) := MLS.promoteUser now sys t.sender target newLevel
      (true, st1, some sys1)
    | _, _ => (true, st1, ps)

/-- `_execute_permission_revoke`: a missing `data['target_address']` raises;
a flat revoke applies when `data.permission` is present and the action
(default `revoke`) is `revoke`; the `set_level` demotion branch is `pass` in
the source. -/
def executePermissionRevoke (st : BlockchainState) (t : Transaction) :
    Bool × BlockchainState :=
  match t.data.targetAddress with
  | none => (false, st)
  | some target =>
    let action := t.data.action.getD "revoke"
    let st1 := match t.data.permission with
      | some permission => if action = "revoke" then revokePermission st target permission else st
      | none => st
    (true, st1)

/-- Execution dispatch for one transaction inside
`_execute_block_transactions`. `GENESIS` and the custom/contract kinds are
no-ops. The first component is `false` exactly when the source raises; the
state and MLS returned then carry the mutations performed before the raise. -/
def executeTx (now : Int) (st : BlockchainState) (ps : Option MLS.System) (t : Transaction) :
    Bool × BlockchainState × Option MLS.System :=
  match t.txType with
  | TransactionType.transfer =>
    let (ok, s1) := executeTransfer st t
    (ok, s1, ps)
  | TransactionType.validatorUpdate =>
    let (ok, s1) := executeValidatorUpdate st t
    (ok, s1, ps)
  | TransactionType.permissionGrant => executePermissionGrant now st ps t
  | TransactionType.permissionRevoke =>
    let (ok, s1) := executePermissionRevoke st t
    (ok, s1, ps)
  | _ => (true, st, ps)

/-- The transaction loop of `_execute_block_transactions`: execute in block
order, stopping at the first raise. -/
def execLoop (now : Int) : BlockchainState → Option MLS.System → List Transaction →
    Bool × BlockchainState × Option MLS.System
  | st, ps, [] => (true, st, ps)
  | st, ps, t :: rest =>
    match executeTx now st ps t with
    | (true, st1, ps1) => execLoop now st1 ps1 rest
    | (false, st1, ps1) => (false, st1, ps1)

/-- `_execute_block_transactions`: execute under a snapshot of `self.state`;
on a raise the state (and only the state — not the permission system) is
restored from the snapshot and the block is reported failed. -/
def executeBlockTransactions (now : Int) (c : Chain) (b : Block) : Bool × Chain :=
  let snapshot := c.state
  match execLoop now c.state c.permissionSystem b.transactions with
  | (true, st1, ps1) => (true, { c with state := st1, permissionSystem := ps1 })
  | (false, _, ps1) => (false, { c with state := snapshot, permissionSystem := ps1 })

/-- Update a stored validator in place, if present. -/
def updateValidator (s : BlockchainState) (address : String)
    (f : ValidatorState → ValidatorState) : BlockchainState :=
  match Util.alookup s.validators address with
  | some v => { s with validators := Util.aset s.validators address (f v) }
  | none => s

/-- `add_block`: structural verification, consensus validation (`cv` stands
for the plugged mechanism's `validate_block`), execution under snapshot, then
commit: append the block, advance height and last hash, recompute the app
hash, drop executed digests from pending, and bump the proposer's counter.
The consensus `on_block_committed` hook and the persistence flush touch
nothing embedded here. -/
def addBlock (D : TxCore → String) (AH : BlockchainState → String)
    (cv : Block → BlockchainState → Bool) (now : Int) (c : Chain) (b : Block) : Bool × Chain :=
  let (ok1, c1) := verifyBlock D now c b
  if ¬ ok1 then (false, c1)
  else if ¬ cv b c1.state then (false, c1)
  else
    let (ok2, c2) := executeBlockTransactions now c1 b
    if ¬ ok2 then (false, c2)
    else
      let c3 := { c2 with blocks := c2.blocks ++ [b] }
      let st1 := { c3.state with height := b.height, lastBlockHash := b.hash }
      let st2 := calculateAppHash AH st1
      let executedHashes := b.transactions.map (txHashVal D)
      let pending1 := c3.pending.filter (fun tx => ¬ executedHashes.contains (txHashVal D tx))
      let st3 := updateValidator st2 b.validatorAddress
        (fun v => { v with totalBlocksProposed := v.totalBlocksProposed + 1 })
      (true, { c3 with state := st3, pending := pending1 })

end Engine

/-- All account balances are nonnegative. -/
def NonnegBalances (s : BlockchainState) : Prop :=
  ∀ p ∈ s.accounts, 0 ≤ p.2.balance

namespace Fix

/-- A concrete instantiation of the abstract canonical-digest parameter. -/
def D0 : TxCore → String := fun _ => "h"

/-- A concrete digest distinguishing transactions by nonce. -/
def D1 : TxCore → String := fun c => if c.nonce = 0 then "h0" else "h1"

/-- A concrete instantiation of the abstract app-hash parameter. -/
def AH0 : BlockchainState → String := fun _ => "apphash"

/-- A consensus plugin accepting every block. -/
def cvTrue : Block → BlockchainState → Bool := fun _ _ => true

/-- A concrete abstract-signature verifier. -/
def V0 : String → String → String → Bool := fun msg sig _ => msg == "h" && sig == "sg"

/-- A concrete injective hash for the Merkle witnesses. -/
def Hinj : String → String := fun s => "#" ++ s

/-- A placeholder genesis block whose hash anchors the fixtures. -/
def g0 : Block :=
  ⟨0, "0000000000000000000000000000000000000000000000000000000000000000", [], "genesis",
   0, 1, [], "mr", "genesis_signature", "gh"⟩

/-- An unsigned `CUSTOM` transaction. -/
def tCustom : Transaction :=
  ⟨TransactionType.custom, "alice", [], [], TxData.empty, 0, 0, "", "", none⟩

/-- A fresh state with no accounts. -/
def stEmpty : BlockchainState :=
  ⟨"c", [], [], 0, "gh", "ah", []⟩

/-- A fresh chain with no pending transactions and no MLS. -/
def cEmpty : Engine.Chain :=
  ⟨"c", [g0], [], stEmpty, none⟩

/-- A state where `al` may transfer and holds a zero balance. -/
def stXfer : BlockchainState :=
  ⟨"c", [("al", ⟨"al", 0, 0, [], ["can_transfer"]⟩)], [], 0, "gh", "ah", []⟩

/-- A negative-amount `TRANSFER` from `al` to `bob`. -/
def txNeg : Transaction :=
  ⟨TransactionType.transfer, "al", [⟨"al", some (-5), []⟩], [⟨"bob", some (-5), []⟩],
   TxData.empty, 0, 0, "sg", "pk", none⟩

/-- A block carrying only the negative-amount transfer. -/
def bNeg : Block :=
  ⟨1, "gh", [txNeg], "nobody", 0, 1, [], "h", "vs", "bh"⟩

/-- The chain about to commit the negative-amount transfer. -/
def cNeg : Engine.Chain :=
  ⟨"c", [g0], [], stXfer, none⟩

/-- A nonnegative `TRANSFER` from `al` to `bob` (overdraws, so it raises). -/
def txOver : Transaction :=
  ⟨TransactionType.transfer, "al", [⟨"al", some 5, []⟩], [⟨"bob", some 5, []⟩],
   TxData.empty, 0, 0, "sg", "pk", none⟩

/-- A block carrying only the overdrawing transfer. -/
def bOver : Block :=
  ⟨1, "gh", [txOver], "nobody", 0, 1, [], "h", "vs", "bh"⟩

/-- A level-3 classified item. -/
def item3 : MLS.DataItem := ⟨"doc3", "intel", 3, "gen", [], 0, []⟩

/-- A level-5 classified item. -/
def item5 : MLS.DataItem := ⟨"doc5", "codes", 5, "gen", [], 0, []⟩

/-- An MLS with creator `gen` at level 5 and user `col` at level 4. -/
def mls0 : MLS.System :=
  ⟨5, "gen", [("gen", 5), ("col", 4)], [("doc3", item3), ("doc5", item5)], []⟩

/-- A state where `gen` may grant permissions and `al` may transfer. -/
def stPerm : BlockchainState :=
  ⟨"c", [("gen", ⟨"gen", 0, 0, [], ["can_grant_permissions"]⟩),
         ("al", ⟨"al", 0, 0, [], ["can_transfer", "can_update_validators"]⟩)],
   [], 0, "gh", "ah", []⟩

/-- The data payload of the promotion transaction. -/
def promoteData : TxData :=
  { TxData.empty with targetAddress := some "col", action := some "set_level", newLevel := some 5 }

/-- A `PERMISSION_GRANT` by the creator promoting `col` to level 5. -/
def txPromote : Transaction :=
  ⟨TransactionType.permissionGrant, "gen", [], [], promoteData, 0, 0, "sg", "pk", none⟩

/-- A `VALIDATOR_UPDATE` with its required `validator_address` key missing
(its execution raises `KeyError`). -/
def txBadVal : Transaction :=
  ⟨TransactionType.validatorUpdate, "al", [], [],
   { TxData.empty with action := some "add" },
   1, 0, "sg", "pk", none⟩

/-- A block whose first transaction promotes and whose second raises. -/
def bPromoteThenRaise : Block :=
  ⟨1, "gh", [txPromote, txBadVal], "nobody", 0, 1, [],
   Merkle.calculateMerkleRoot SHA256.sha256Hex [txHashVal D1 txPromote, txHashVal D1 txBadVal],
   "vs", "bh"⟩

/-- The chain about to commit `bPromoteThenRaise`. -/
def cPerm : Engine.Chain :=
  ⟨"c", [g0], [], stPerm, some mls0⟩

/-- Four equal-power validators for the Tendermint fixture. -/
def stVals : BlockchainState :=
  ⟨"c", [],
   [("v1", ⟨"v1", "p1", 10, "", true, 0, 0⟩),
    ("v2", ⟨"v2", "p2", 10, "", true, 0, 0⟩),
    ("v3", ⟨"v3", "p3", 10, "", true, 0, 0⟩),
    ("v4", ⟨"v4", "p4", 10, "", true, 0, 0⟩)],
   0, "gh", "ah", []⟩

/-- An empty block at height 1 proposed by `v1`. -/
def bTm : Block :=
  ⟨1, "gh", [], "v1", 100, 1, [], "mr", "vs", "bh"⟩

/-- A consensus round at height 1 holding no votes at all. -/
def emptyRound : Consensus.ConsensusRound :=
  ⟨1, 0, [], none, none, none⟩

/-- A signed transaction fixture for the memoization witness. -/
def txSigned : Transaction :=
  ⟨TransactionType.transfer, "al", [⟨"al", some 7, []⟩], [⟨"bob", some 7, []⟩],
   TxData.empty, 0, 0, "sg", "pk", none⟩

end Fix

namespace Util

theorem alookup_aset_self {α : Type} (m : List (String × α)) (k : String) (v : α) :
    alookup (aset m k v) k = some v := by
  induction m with
  | nil => simp [aset, alookup]
  | cons p m ih =>
    obtain ⟨k1, w⟩ := p
    by_cases h : k1 = k
    · simp [aset, alookup, h]
    · simp [aset, alookup, h, ih]

theorem alookup_aset_ne {α : Type} (m : List (String × α)) (k : String) (v : α)
    (x : String) (h : x ≠ k) : alookup (aset m k v) x = alookup m x := by
  induction m with
  | nil =>
    simp [aset, alookup]
    intro hk
    exact absurd hk.symm h
  | cons p m ih =>
    obtain ⟨k1, w⟩ := p
    by_cases h1 : k1 = k
    · subst h1
      simp only [aset, if_pos rfl, alookup]
      rw [if_neg (fun hx => h hx.symm), if_neg (fun hx => h hx.symm)]
    · by_cases h2 : k1 = x
      · subst h2
        simp [aset, alookup, h1]
      · simp [aset, alookup, h1, h2, ih]

theorem aset_not_mem {α : Type} (m : List (String × α)) (k : String) (v : α)
    (h : alookup m k = none) : aset m k v = m ++ [(k, v)] := by
  induction m with
  | nil => simp [aset]
  | cons p m ih =>
    obtain ⟨k1, w⟩ := p
    by_cases h1 : k1 = k
    · simp [alookup, h1] at h
    · simp only [alookup, if_neg h1] at h
      simp [aset, h1, ih h]

theorem mem_aset {α : Type} {P : String × α → Prop} {m : List (String × α)}
    {k : String} {v : α} (hm : ∀ p ∈ m, P p) (hv : P (k, v)) :
    ∀ p ∈ aset m k v, P p := by
  induction m with
  | nil => simpa [aset] using hv
  | cons q m ih =>
    obtain ⟨k1, w⟩ := q
    by_cases h1 : k1 = k
    · subst h1
      simp only [aset, if_pos rfl]
      intro p hp
      rcases List.mem_cons.mp hp with h | h
      · subst h; exact hv
      · exact hm p (List.mem_cons_of_mem _ h)
    · simp only [aset, if_neg h1]
      intro p hp
      rcases List.mem_cons.mp hp with h | h
      · subst h; exact hm _ (List.mem_cons_self _ _)
      · exact ih (fun q hq => hm q (List.mem_cons_of_mem _ hq)) p h

end Util

namespace MLS

theorem getUserLevelS_fst (now : Int) (sys : System) (a : String) :
    (getUserLevelS now sys a).1 = userLevel sys a := by
  unfold getUserLevelS userLevel
  cases h : Util.alookup sys.userLevels a <;> simp [h]

theorem getUserLevelS_userLevel (now : Int) (sys : System) (a x : String) :
    userLevel (getUserLevelS now sys a).2 x = userLevel sys x := by
  unfold getUserLevelS
  cases h : Util.alookup sys.userLevels a with
  | some l => rfl
  | none =>
    by_cases hx : x = a
    · subst hx
      simp [userLevel, logAction, Util.alookup_aset_self, h]
    · simp [userLevel, logAction, Util.alookup_aset_ne _ _ _ _ hx]

theorem getUserLevelS_creator (now : Int) (sys : System) (a : String) :
    (getUserLevelS now sys a).2.creatorAddress = sys.creatorAddress := by
  unfold getUserLevelS
  cases Util.alookup sys.userLevels a <;> rfl

theorem getUserLevelS_numLevels (now : Int) (sys : System) (a : String) :
    (getUserLevelS now sys a).2.numLevels = sys.numLevels := by
  unfold getUserLevelS
  cases Util.alookup sys.userLevels a <;> rfl

theorem getUserLevelS_dataStore (now : Int) (sys : System) (a : String) :
    (getUserLevelS now sys a).2.dataStore = sys.dataStore := by
  unfold getUserLevelS
  cases Util.alookup sys.userLevels a <;> rfl

theorem getUserLevelS_auditLog (now : Int) (sys : System) (a : String) :
    ∃ mid, (getUserLevelS now sys a).2.auditLog = sys.auditLog ++ mid := by
  unfold getUserLevelS
  cases Util.alookup sys.userLevels a with
  | some l => exact ⟨[], by simp⟩
  | none => exact ⟨_, rfl⟩

end MLS

theorem MLS.userLevel_logAction (sys : MLS.System) (a b : String)
    (d : List (String × MLS.AVal)) (now : Int) (x : String) :
    MLS.userLevel (MLS.logAction sys a b d now) x = MLS.userLevel sys x := rfl

/-- C4: `promote_user(p, t, n)` succeeds iff `1 ≤ n ≤ L`, `n` strictly
exceeds the target's current level, and the promoter is the creator or sits
strictly above the target with `n` within the promoter's own level; success
sets the target's level to `n`, and every decision leaves every other user's
level unchanged. -/
theorem mls_promote_rule (now : Int) (sys : MLS.System) (p t : String) (n : Int) :
    (((MLS.promoteUser now sys p t n).1 = true) ↔
      (1 ≤ n ∧ n ≤ sys.numLevels ∧ MLS.userLevel sys t < n ∧
        (p = sys.creatorAddress ∨
          (MLS.userLevel sys t < MLS.userLevel sys p ∧ n ≤ MLS.userLevel sys p))))
    ∧ ((MLS.promoteUser now sys p t n).1 = true →
        MLS.userLevel (MLS.promoteUser now sys p t n).2 t = n)
    ∧ (∀ u, u ≠ t → MLS.userLevel (MLS.promoteUser now sys p t n).2 u = MLS.userLevel sys u) := by
  rcases hgp : MLS.getUserLevelS now sys p with ⟨pl, s1⟩
  rcases hgt : MLS.getUserLevelS now s1 t with ⟨tl, s2⟩
  have hs1 : s1 = (MLS.getUserLevelS now sys p).2 := by rw [hgp]
  have hs2 : s2 = (MLS.getUserLevelS now s1 t).2 := by rw [hgt]
  have hpl : pl = MLS.userLevel sys p := by
    have h0 := MLS.getUserLevelS_fst now sys p
    rw [hgp] at h0
    exact h0
  have htl : tl = MLS.userLevel sys t := by
    have h0 : tl = MLS.userLevel s1 t := by
      have h1 := MLS.getUserLevelS_fst now s1 t
      rw [hgt] at h1
      exact h1
    rw [h0, hs1, MLS.getUserLevelS_userLevel]
  have hlev : ∀ x, MLS.userLevel s2 x = MLS.userLevel sys x := by
    intro x
    rw [hs2, MLS.getUserLevelS_userLevel, hs1, MLS.getUserLevelS_userLevel]
  simp only [MLS.promoteUser, hgp, hgt]
  split_ifs with h1 h2 h3 h4 h5
  · refine ⟨⟨fun h => h.elim, ?_⟩,
      fun h => h.elim, fun u _ => rfl⟩
    rintro ⟨ha, hb, -, -⟩
    omega
  · refine ⟨⟨fun h => h.elim, ?_⟩,
      fun h => h.elim, fun u _ => hlev u⟩
    rintro ⟨-, -, hc, -⟩
    omega
  · refine ⟨⟨fun _ => ⟨by omega, by omega, by omega, Or.inl h3⟩, fun _ => rfl⟩, ?_, ?_⟩
    · intro _
      rw [MLS.userLevel_logAction]
      show (Util.alookup (Util.aset s2.userLevels t n) t).getD 1 = n
      rw [Util.alookup_aset_self]
      rfl
    · intro u hu
      rw [MLS.userLevel_logAction]
      show (Util.alookup (Util.aset s2.userLevels t n) u).getD 1 = MLS.userLevel sys u
      rw [Util.alookup_aset_ne _ _ _ _ hu]
      exact hlev u
  · refine ⟨⟨fun h => h.elim, ?_⟩,
      fun h => h.elim, fun u _ => hlev u⟩
    rintro ⟨-, -, -, hd⟩
    rcases hd with hd | ⟨hd1, hd2⟩
    · exact h3 hd
    · omega
  · refine ⟨⟨fun h => h.elim, ?_⟩,
      fun h => h.elim, fun u _ => hlev u⟩
    rintro ⟨-, -, -, hd⟩
    rcases hd with hd | ⟨hd1, hd2⟩
    · exact h3 hd
    · omega
  · refine ⟨⟨fun _ => ⟨by omega, by omega, by omega, Or.inr ⟨by omega, by omega⟩⟩,
      fun _ => rfl⟩, ?_, ?_⟩
    · intro _
      rw [MLS.userLevel_logAction]
      show (Util.alookup (Util.aset s2.userLevels t n) t).getD 1 = n
      rw [Util.alookup_aset_self]
      rfl
    · intro u hu
      rw [MLS.userLevel_logAction]
      show (Util.alookup (Util.aset s2.userLevels t n) u).getD 1 = MLS.userLevel sys u
      rw [Util.alookup_aset_ne _ _ _ _ hu]
      exact hlev u

theorem mls_promote_rule_witness :
    (MLS.promoteUser 0 Fix.mls0 "gen" "col" 5).1 = true
    ∧ MLS.userLevel (MLS.promoteUser 0 Fix.mls0 "gen" "col" 5).2 "col" = 5
    ∧ MLS.userLevel (MLS.promoteUser 0 Fix.mls0 "gen" "col" 5).2 "gen"
        = MLS.userLevel Fix.mls0 "gen" := by
  have h := mls_promote_rule 0 Fix.mls0 "gen" "col" 5
  have htrue : (MLS.promoteUser 0 Fix.mls0 "gen" "col" 5).1 = true :=
    h.1.mpr ⟨by decide, by decide, by decide, Or.inl (by decide)⟩
  exact ⟨htrue, h.2.1 htrue, h.2.2 "gen" (by decide)⟩

/-- C5: for a stored item, `access_data(u, id)` returns the content iff the
user's level dominates the item's security level and `None` otherwise; every
attempt appends an audit entry (`access_data` on success, `access_denied` on
denial), and a success additionally appends the reader to the item's log,
while a denial leaves the item unchanged. -/
theorem mls_access_rule (now : Int) (sys : MLS.System) (u id : String) (item : MLS.DataItem)
    (hid : Util.alookup sys.dataStore id = some item) :
    (((MLS.accessData now sys u id).1 = some item.content) ↔
        item.securityLevel ≤ MLS.userLevel sys u)
    ∧ (¬ item.securityLevel ≤ MLS.userLevel sys u → (MLS.accessData now sys u id).1 = none)
    ∧ (∃ mid entry, (MLS.accessData now sys u id).2.auditLog = sys.auditLog ++ mid ++ [entry]
        ∧ entry.actor = u
        ∧ entry.action =
            (if item.securityLevel ≤ MLS.userLevel sys u then "access_data" else "access_denied"))
    ∧ (item.securityLevel ≤ MLS.userLevel sys u →
        Util.alookup (MLS.accessData now sys u id).2.dataStore id
          = some (item.recordAccess u now))
    ∧ (¬ item.securityLevel ≤ MLS.userLevel sys u →
        Util.alookup (MLS.accessData now sys u id).2.dataStore id = some item) := by
  rcases hg1 : MLS.getUserLevelS now sys u with ⟨ul, s1⟩
  have hs1 : s1 = (MLS.getUserLevelS now sys u).2 := by rw [hg1]
  have hul : ul = MLS.userLevel sys u := by
    have h0 := MLS.getUserLevelS_fst now sys u
    rw [hg1] at h0
    exact h0
  have hds1 : s1.dataStore = sys.dataStore := by rw [hs1, MLS.getUserLevelS_dataStore]
  obtain ⟨mid1, hmid1⟩ : ∃ mid, s1.auditLog = sys.auditLog ++ mid := by
    rw [hs1]
    exact MLS.getUserLevelS_auditLog now sys u
  subst hul
  rcases hg2 : MLS.getUserLevelS now s1 u with ⟨ul2, s2⟩
  have hs2 : s2 = (MLS.getUserLevelS now s1 u).2 := by rw [hg2]
  have hds2 : s2.dataStore = sys.dataStore := by rw [hs2, MLS.getUserLevelS_dataStore, hds1]
  obtain ⟨mid2, hmid2⟩ : ∃ mid, s2.auditLog = sys.auditLog ++ mid := by
    obtain ⟨m2, hm2⟩ := MLS.getUserLevelS_auditLog now s1 u
    rw [hs2, hm2, hmid1]
    exact ⟨mid1 ++ m2, by simp⟩
  simp only [MLS.accessData, hid, MLS.canAccessData, hg1, hg2]
  by_cases hacc : item.securityLevel ≤ MLS.userLevel sys u
  · rw [if_pos hacc,
      if_neg (by simpa using hacc :
        ¬ ¬ (decide (item.securityLevel ≤ MLS.userLevel sys u) = true))]
    refine ⟨⟨fun _ => hacc, fun _ => rfl⟩, fun h => absurd hacc h, ?_, ?_, ?_⟩
    · refine ⟨mid1,
        ⟨"access_data", u, [("data_id", MLS.AVal.s id),
          ("security_level", MLS.AVal.i item.securityLevel)], now⟩, ?_, rfl, rfl⟩
      show s1.auditLog ++ [_] = sys.auditLog ++ mid1 ++ [_]
      rw [hmid1]
    · intro _
      show Util.alookup (Util.aset s1.dataStore id (item.recordAccess u now)) id
        = some (item.recordAccess u now)
      exact Util.alookup_aset_self _ _ _
    · intro h
      exact absurd hacc h
  · rw [if_neg hacc,
      if_pos (by simpa using hacc :
        ¬ (decide (item.securityLevel ≤ MLS.userLevel sys u) = true))]
    refine ⟨⟨fun h => Option.noConfusion h, fun h => absurd h hacc⟩, fun _ => rfl, ?_, ?_, ?_⟩
    · refine ⟨mid2,
        ⟨"access_denied", u, [("data_id", MLS.AVal.s id),
          ("required_level", MLS.AVal.i item.securityLevel),
          ("user_level", MLS.AVal.i ul2)], now⟩, ?_, rfl, rfl⟩
      show s2.auditLog ++ [_] = sys.auditLog ++ mid2 ++ [_]
      rw [hmid2]
    · intro h
      exact absurd h hacc
    · intro _
      show Util.alookup s2.dataStore id = some item
      rw [hds2]
      exact hid

theorem mls_access_rule_witness :
    (MLS.accessData 0 Fix.mls0 "col" "doc3").1 = some Fix.item3.content
    ∧ (MLS.accessData 0 Fix.mls0 "col" "doc5").1 = none := by
  have h3 := mls_access_rule 0 Fix.mls0 "col" "doc3" Fix.item3 (by decide)
  have h5 := mls_access_rule 0 Fix.mls0 "col" "doc5" Fix.item5 (by decide)
  exact ⟨h3.1.mpr (by decide), h5.2.1 (by decide)⟩

/-- C1: evidence against the admission claim: an unsigned non-`GENESIS`
transaction passes `add_transaction` and lands in the pending pool, because
`_verify_transaction`'s signature branch is an unimplemented no-op (the
source's own TODO); no public-key, address-derivation or signature check is
performed. -/
theorem add_transaction_skips_signature :
    Fix.tCustom.signature = "" ∧ Fix.tCustom.txType ≠ TransactionType.genesis
    ∧ (Engine.addTransaction Fix.D0 0 Fix.cEmpty Fix.tCustom).1 = true
    ∧ (Engine.addTransaction Fix.D0 0 Fix.cEmpty Fix.tCustom).2.pending = [Fix.tCustom] := by
  decide

/-- C3 counterexample: a block passes Tendermint `validate_block` while the
round at its height holds zero votes — far below the `⌊2n/3⌋ + 1 = 3`
supermajority for `n = 4` active validators — because `validate_block` never
consults prevotes or precommits. -/
theorem tendermint_passes_without_votes :
    Consensus.tendermintValidateBlock {} 100 Fix.bTm Fix.stVals = true
    ∧ Fix.emptyRound.votes.length = 0
    ∧ Fix.emptyRound.hasSupermajority 4 = false := by
  decide

/-- C3 amended: Tendermint `validate_block` enforces only that the proposer
is a known active validator matching the weighted round-robin selection, that
the block is at most `2 * block_time` old, and that it carries at most
`max_block_size` transactions; vote accumulation is not consulted (the
`⌊2n/3⌋ + 1` supermajority lives solely in `ConsensusRound.has_supermajority`). -/
theorem tendermint_validate_characterization (cfg : Consensus.TendermintConfig) (now : Int)
    (b : Block) (s : BlockchainState)
    (h : Consensus.tendermintValidateBlock cfg now b s = true) :
    (∃ v, BlockchainState.getValidator s b.validatorAddress = some v ∧ v.active = true)
    ∧ Consensus.selectProposer b.height (BlockchainState.getActiveValidators s)
        = some b.validatorAddress
    ∧ now - cfg.blockTime * 2 ≤ b.timestamp
    ∧ b.transactions.length ≤ cfg.maxBlockSize := by
  cases hv : BlockchainState.getValidator s b.validatorAddress with
  | none =>
    simp only [Consensus.tendermintValidateBlock, hv] at h
    exact absurd h Bool.false_ne_true
  | some v =>
    simp only [Consensus.tendermintValidateBlock, hv] at h
    by_cases hact : v.active = true
    · rw [if_neg (not_not_intro hact)] at h
      cases hsp : Consensus.selectProposer b.height (BlockchainState.getActiveValidators s) with
      | none =>
        simp only [hsp] at h
        exact absurd h Bool.false_ne_true
      | some expected =>
        simp only [hsp] at h
        by_cases hexp : b.validatorAddress = expected
        · rw [if_neg (not_not_intro hexp)] at h
          by_cases hold : b.timestamp < now - cfg.blockTime * 2
          · rw [if_pos hold] at h
            exact absurd h Bool.false_ne_true
          · rw [if_neg hold] at h
            by_cases hsize : b.transactions.length > cfg.maxBlockSize
            · rw [if_pos hsize] at h
              exact absurd h Bool.false_ne_true
            · subst hexp
              exact ⟨⟨v, rfl, hact⟩, rfl, by omega, by omega⟩
        · rw [if_pos hexp] at h
          exact absurd h Bool.false_ne_true
    · rw [if_pos hact] at h
      exact absurd h Bool.false_ne_true

theorem tendermint_validate_characterization_witness :
    Consensus.selectProposer Fix.bTm.height (BlockchainState.getActiveValidators Fix.stVals)
      = some Fix.bTm.validatorAddress
    ∧ 100 - ({} : Consensus.TendermintConfig).blockTime * 2 ≤ Fix.bTm.timestamp :=
  ⟨(tendermint_validate_characterization {} 100 Fix.bTm Fix.stVals (by decide)).2.1,
   (tendermint_validate_characterization {} 100 Fix.bTm Fix.stVals (by decide)).2.2.1⟩

/-- C10: `Transaction.hash()` is memoized: the first call stores the digest,
a later mutation of `outputs[0].amount` does not change what `hash()`
returns, and `verify_signature()` on the tampered object still verifies the
stored signature against the original digest. -/
theorem tx_hash_memoized (D : TxCore → String) (V : String → String → String → Bool)
    (t : Transaction) (amt : Rat)
    (hcache : t.hashCache = none) (hne : (D t.core).isEmpty = false) :
    (Transaction.hashRun D (setFirstOutputAmount (Transaction.hashRun D t).2 amt)).1 = D t.core
    ∧ (Transaction.hashRun D t).1 = D t.core
    ∧ (Transaction.verifySignatureRun D V
          (setFirstOutputAmount (Transaction.hashRun D t).2 amt) none).1
        = (if t.publicKey.isEmpty then false else V (D t.core) t.signature t.publicKey) := by
  have h1 : Transaction.hashRun D t = (D t.core, { t with hashCache := some (D t.core) }) := by
    simp [Transaction.hashRun, hcache]
  refine ⟨?_, by rw [h1], ?_⟩
  · rw [h1]
    simp [setFirstOutputAmount, Transaction.hashRun, hne]
  · rw [h1]
    simp only [setFirstOutputAmount, Transaction.verifySignatureRun, Transaction.hashRun]
    by_cases hk : t.publicKey.isEmpty
    · simp [hk]
    · simp [hk, hne]

theorem tx_hash_memoized_witness :
    (Transaction.hashRun Fix.D1
        (setFirstOutputAmount (Transaction.hashRun Fix.D1 Fix.txSigned).2 999)).1
      = Fix.D1 Fix.txSigned.core :=
  (tx_hash_memoized Fix.D1 Fix.V0 Fix.txSigned 999 rfl (by decide)).1

namespace Engine

theorem checkTransactionPermissions_shape (now : Int) (c : Chain) (t : Transaction) :
    ∃ st ps, (checkTransactionPermissions now c t).2
      = { c with state := st, permissionSystem := ps } := by
  unfold checkTransactionPermissions
  cases hrp : requiredPermissionFor t.txType with
  | none =>
    dsimp only
    cases hps : c.permissionSystem with
    | none => exact ⟨c.state, c.permissionSystem, by simp [hps]; rw [← hps]⟩
    | some ps =>
      cases hsl : t.data.securityLevel with
      | none => exact ⟨c.state, c.permissionSystem, by simp [hps, hsl]; rw [← hps]⟩
      | some lvl =>
        rcases hgl : MLS.getUserLevelS now ps t.sender with ⟨ul, ps1⟩
        by_cases hul : ul < lvl
        · exact ⟨c.state, some ps1, by simp [hps, hsl, hgl, hul]⟩
        · exact ⟨c.state, some ps1, by simp [hps, hsl, hgl, hul]⟩
  | some p =>
    rcases hhp : BlockchainState.hasPermission c.state t.sender p with ⟨hp, s1⟩
    dsimp only
    cases hp with
    | false => exact ⟨s1, c.permissionSystem, by simp [hhp]⟩
    | true =>
      cases hps : c.permissionSystem with
      | none => exact ⟨s1, none, by simp [hhp, hps]⟩
      | some ps =>
        cases hsl : t.data.securityLevel with
        | none => exact ⟨s1, some ps, by simp [hhp, hps, hsl]⟩
        | some lvl =>
          rcases hgl : MLS.getUserLevelS now ps t.sender with ⟨ul, ps1⟩
          by_cases hul : ul < lvl
          · exact ⟨s1, some ps1, by simp [hhp, hps, hsl, hgl, hul]⟩
          · exact ⟨s1, some ps1, by simp [hhp, hps, hsl, hgl, hul]⟩

theorem verifyTransaction_shape (now : Int) (c : Chain) (t : Transaction) :
    ∃ st ps, (verifyTransaction now c t).2
      = { c with state := st, permissionSystem := ps } := by
  unfold verifyTransaction
  rcases hga : BlockchainState.getAccount c.state t.sender with ⟨account, s1⟩
  dsimp only
  by_cases hn : t.nonce < account.nonce
  · exact ⟨s1, c.permissionSystem, by simp [hn]⟩
  · rw [if_neg hn]
    obtain ⟨st, ps, h⟩ := checkTransactionPermissions_shape now { c with state := s1 } t
    exact ⟨st, ps, h⟩

theorem verifyTxs_shape (now : Int) (c : Chain) (txs : List Transaction) :
    ∃ st ps, (verifyTxs now c txs).2 = { c with state := st, permissionSystem := ps } := by
  induction txs generalizing c with
  | nil => exact ⟨c.state, c.permissionSystem, rfl⟩
  | cons t rest ih =>
    rcases hv : verifyTransaction now c t with ⟨ok, c1⟩
    obtain ⟨st1, ps1, h1⟩ : ∃ st ps, c1 = { c with state := st, permissionSystem := ps } := by
      have h0 := verifyTransaction_shape now c t
      rw [hv] at h0
      exact h0
    unfold verifyTxs
    rw [hv]
    subst h1
    cases ok with
    | false => exact ⟨st1, ps1, by simp⟩
    | true =>
      dsimp only
      rw [if_neg (not_not_intro rfl)]
      exact ih _

theorem verifyBlock_shape (D : TxCore → String) (now : Int) (c : Chain) (b : Block) :
    ∃ st ps, (verifyBlock D now c b).2 = { c with state := st, permissionSystem := ps } := by
  unfold verifyBlock
  by_cases h1 : b.height ≠ (c.blocks.length : Int) - 1 + 1
  · rw [if_pos h1]
    exact ⟨c.state, c.permissionSystem, rfl⟩
  · rw [if_neg h1]
    cases hlast : c.blocks.getLast? with
    | none => exact ⟨c.state, c.permissionSystem, rfl⟩
    | some lastBlock =>
      dsimp only
      by_cases h2 : b.previousHash ≠ lastBlock.hash
      · rw [if_pos h2]
        exact ⟨c.state, c.permissionSystem, rfl⟩
      · rw [if_neg h2]
        by_cases h3 : Block.verifyMerkleRoot D b = true
        · rw [if_neg (not_not_intro h3)]
          exact verifyTxs_shape now c b.transactions
        · rw [if_pos h3]
          exact ⟨c.state, c.permissionSystem, rfl⟩

end Engine

/-- C2: block commit is atomic against execution failures: when the block has
passed structural verification and consensus validation but some transaction
raises during execution, `add_block` rejects the block and the resulting
chain keeps the pre-execution snapshot state (accounts, balances, nonces,
validators, height, last hash and app hash all equal), with the block list
and the pending pool unchanged. -/
theorem block_commit_atomic (D : TxCore → String) (AH : BlockchainState → String)
    (cv : Block → BlockchainState → Bool) (now : Int) (c : Engine.Chain) (b : Block)
    (h1 : (Engine.verifyBlock D now c b).1 = true)
    (h2 : cv b (Engine.verifyBlock D now c b).2.state = true)
    (h3 : (Engine.execLoop now (Engine.verifyBlock D now c b).2.state
            (Engine.verifyBlock D now c b).2.permissionSystem b.transactions).1 = false) :
    (Engine.addBlock D AH cv now c b).1 = false
    ∧ (Engine.addBlock D AH cv now c b).2.state = (Engine.verifyBlock D now c b).2.state
    ∧ (Engine.addBlock D AH cv now c b).2.blocks = c.blocks
    ∧ (Engine.addBlock D AH cv now c b).2.pending = c.pending := by
  obtain ⟨stv, psv, hshape⟩ := Engine.verifyBlock_shape D now c b
  rcases hvb : Engine.verifyBlock D now c b with ⟨ok1, c1⟩
  rw [hvb] at h1 h2 h3 hshape
  have h1x : ok1 = true := h1
  subst h1x
  have h2x : cv b c1.state = true := h2
  have hshape1 : c1 = { c with state := stv, permissionSystem := psv } := hshape
  rcases hel : Engine.execLoop now c1.state c1.permissionSystem b.transactions
    with ⟨ok2, st2, ps2⟩
  have h3x : ok2 = false := by
    have h0 : (Engine.execLoop now c1.state c1.permissionSystem b.transactions).1 = false := h3
    rw [hel] at h0
    exact h0
  subst h3x
  have haddb : Engine.addBlock D AH cv now c b
      = (false, { c1 with state := c1.state, permissionSystem := ps2 }) := by
    unfold Engine.addBlock Engine.executeBlockTransactions
    rw [hvb]
    dsimp only
    rw [if_neg (not_not_intro rfl), if_neg (not_not_intro h2x), hel]
    dsimp only
    rw [if_pos Bool.false_ne_true]
  rw [haddb]
  refine ⟨rfl, rfl, ?_, ?_⟩
  · show c1.blocks = c.blocks
    rw [hshape1]
  · show c1.pending = c.pending
    rw [hshape1]

theorem block_commit_atomic_witness :
    (Engine.addBlock Fix.D0 Fix.AH0 Fix.cvTrue 0 Fix.cNeg Fix.bOver).1 = false
    ∧ (Engine.addBlock Fix.D0 Fix.AH0 Fix.cvTrue 0 Fix.cNeg Fix.bOver).2.state
        = (Engine.verifyBlock Fix.D0 0 Fix.cNeg Fix.bOver).2.state :=
  ⟨(block_commit_atomic Fix.D0 Fix.AH0 Fix.cvTrue 0 Fix.cNeg Fix.bOver
      (by decide) (by decide) (by decide)).1,
   (block_commit_atomic Fix.D0 Fix.AH0 Fix.cvTrue 0 Fix.cNeg Fix.bOver
      (by decide) (by decide) (by decide)).2.1⟩

theorem promoteUser_success_effects (now : Int) (sys : MLS.System) (p t : String) (n : Int)
    (h : (MLS.promoteUser now sys p t n).1 = true) :
    MLS.userLevel (MLS.promoteUser now sys p t n).2 t = n
    ∧ ∃ e ∈ (MLS.promoteUser now sys p t n).2.auditLog,
        e.action = "promote" ∧ e.actor = p := by
  rcases hgp : MLS.getUserLevelS now sys p with ⟨pl, s1⟩
  rcases hgt : MLS.getUserLevelS now s1 t with ⟨tl, s2⟩
  simp only [MLS.promoteUser, hgp, hgt] at h ⊢
  split_ifs at h ⊢ with h1 h2 h3 h4 h5 <;> try exact h.elim
  · constructor
    · rw [MLS.userLevel_logAction]
      show (Util.alookup (Util.aset s2.userLevels t n) t).getD 1 = n
      rw [Util.alookup_aset_self]
      rfl
    · exact ⟨⟨"promote", p, _, now⟩,
        List.mem_append_right _ (List.mem_singleton_self _), rfl, rfl⟩
  · constructor
    · rw [MLS.userLevel_logAction]
      show (Util.alookup (Util.aset s2.userLevels t n) t).getD 1 = n
      rw [Util.alookup_aset_self]
      rfl
    · exact ⟨⟨"promote", p, _, now⟩,
        List.mem_append_right _ (List.mem_singleton_self _), rfl, rfl⟩

/-- C9: rollback restores only the `BlockchainState`, not the MLS: when a
`PERMISSION_GRANT` carrying `new_level` promotes its target and a later
transaction in the same block raises, `add_block` rejects the block and the
account state is restored from the snapshot, yet the chain's permission
system keeps the promotion — the target's new level and the `promote` audit
entry persist. -/
theorem mls_promotion_survives_rollback (D : TxCore → String) (AH : BlockchainState → String)
    (cv : Block → BlockchainState → Bool) (now : Int) (c : Engine.Chain) (b : Block)
    (sys : MLS.System) (gtx btx : Transaction) (tgt : String) (n : Int)
    (htxs : b.transactions = [gtx, btx])
    (hg1 : gtx.txType = TransactionType.permissionGrant)
    (hg2 : gtx.data.targetAddress = some tgt)
    (hg3 : gtx.data.newLevel = some n)
    (hg4 : gtx.data.permission = none)
    (hb1 : btx.txType = TransactionType.validatorUpdate)
    (hb2 : btx.data.validatorAddress = none)
    (hps : (Engine.verifyBlock D now c b).2.permissionSystem = some sys)
    (hpromote : (MLS.promoteUser now sys gtx.sender tgt n).1 = true)
    (hv : (Engine.verifyBlock D now c b).1 = true)
    (hcv : cv b (Engine.verifyBlock D now c b).2.state = true) :
    (Engine.addBlock D AH cv now c b).1 = false
    ∧ (Engine.addBlock D AH cv now c b).2.state = (Engine.verifyBlock D now c b).2.state
    ∧ (Engine.addBlock D AH cv now c b).2.permissionSystem
        = some (MLS.promoteUser now sys gtx.sender tgt n).2
    ∧ MLS.userLevel (MLS.promoteUser now sys gtx.sender tgt n).2 tgt = n
    ∧ ∃ e ∈ (MLS.promoteUser now sys gtx.sender tgt n).2.auditLog,
        e.action = "promote" ∧ e.actor = gtx.sender := by
  rcases hvb : Engine.verifyBlock D now c b with ⟨ok1, c1⟩
  rw [hvb] at hv hcv hps
  have h1x : ok1 = true := hv
  subst h1x
  have hcvx : cv b c1.state = true := hcv
  have hpsx : c1.permissionSystem = some sys := hps
  rcases hpu : MLS.promoteUser now sys gtx.sender tgt n with ⟨pok, sys1⟩
  have hexec : Engine.execLoop now c1.state c1.permissionSystem b.transactions
      = (false, c1.state, some sys1) := by
    simp only [htxs, Engine.execLoop, Engine.executeTx, hg1, hb1,
      Engine.executePermissionGrant, Engine.executeValidatorUpdate,
      hg2, hg3, hg4, hb2, hpsx, hpu]
  have haddb : Engine.addBlock D AH cv now c b
      = (false, { c1 with state := c1.state, permissionSystem := some sys1 }) := by
    unfold Engine.addBlock Engine.executeBlockTransactions
    rw [hvb]
    dsimp only
    rw [if_neg (not_not_intro rfl), if_neg (not_not_intro hcvx), hexec]
    dsimp only
    rw [if_pos Bool.false_ne_true]
  have heff := promoteUser_success_effects now sys gtx.sender tgt n hpromote
  rw [hpu] at heff
  rw [haddb]
  exact ⟨rfl, rfl, rfl, heff.1, heff.2⟩

set_option maxRecDepth 40000 in
theorem mls_promotion_survives_rollback_witness :
    (Engine.addBlock Fix.D1 Fix.AH0 Fix.cvTrue 0 Fix.cPerm Fix.bPromoteThenRaise).1 = false
    ∧ (Engine.addBlock Fix.D1 Fix.AH0 Fix.cvTrue 0 Fix.cPerm
        Fix.bPromoteThenRaise).2.permissionSystem
        = some (MLS.promoteUser 0 Fix.mls0 "gen" "col" 5).2
    ∧ MLS.userLevel (MLS.promoteUser 0 Fix.mls0 "gen" "col" 5).2 "col" = 5 := by
  have h := mls_promotion_survives_rollback Fix.D1 Fix.AH0 Fix.cvTrue 0 Fix.cPerm
    Fix.bPromoteThenRaise Fix.mls0 Fix.txPromote Fix.txBadVal "col" 5
    rfl rfl rfl rfl rfl rfl rfl (by decide) (by decide) (by decide) (by decide)
  exact ⟨h.1, h.2.2.1, h.2.2.2.1⟩

namespace Util

theorem alookup_mem {α : Type} {m : List (String × α)} {k : String} {v : α}
    (h : alookup m k = some v) : (k, v) ∈ m := by
  induction m with
  | nil => simp [alookup] at h
  | cons p m ih =>
    obtain ⟨k1, w⟩ := p
    by_cases h1 : k1 = k
    · subst h1
      simp only [alookup, eq_self_iff_true, if_true, Option.some.injEq] at h
      subst h
      exact List.mem_cons_self _ _
    · simp only [alookup, if_neg h1] at h
      exact List.mem_cons_of_mem _ (ih h)

theorem sum_map_aset_some {α : Type} (g : α → Rat) {m : List (String × α)} {k : String}
    {v : α} (w : α) (hv : alookup m k = some v) :
    ((aset m k w).map (fun p => g p.2)).sum = ((m.map (fun p => g p.2)).sum - g v) + g w := by
  induction m with
  | nil => simp [alookup] at hv
  | cons p m ih =>
    obtain ⟨k1, u⟩ := p
    by_cases h1 : k1 = k
    · subst h1
      simp only [alookup, eq_self_iff_true, if_true, Option.some.injEq] at hv
      subst hv
      simp only [aset, eq_self_iff_true, if_true, List.map_cons, List.sum_cons]
      ring
    · simp only [alookup, if_neg h1] at hv
      simp only [aset, if_neg h1, List.map_cons, List.sum_cons, ih hv]
      ring

end Util

namespace BlockchainState

theorem nonneg_of_accounts_eq {s s' : BlockchainState} (he : s'.accounts = s.accounts)
    (h : NonnegBalances s) : NonnegBalances s' := fun p hp => h p (he ▸ hp)

theorem nonneg_getAccount (s : BlockchainState) (a : String) (h : NonnegBalances s) :
    NonnegBalances (getAccount s a).2 := by
  unfold getAccount
  cases hv : Util.alookup s.accounts a with
  | some acc => exact h
  | none =>
    intro p hp
    exact Util.mem_aset h (le_refl (0 : Rat)) p hp

theorem getAccount_fst_balance (s : BlockchainState) (a : String) (h : NonnegBalances s) :
    0 ≤ (getAccount s a).1.balance := by
  unfold getAccount
  cases hv : Util.alookup s.accounts a with
  | some acc => exact h _ (Util.alookup_mem hv)
  | none => exact le_refl _

theorem getAccount_lookup_self (s : BlockchainState) (a : String) :
    Util.alookup (getAccount s a).2.accounts a = some (getAccount s a).1 := by
  unfold getAccount
  cases hv : Util.alookup s.accounts a with
  | some acc => exact hv
  | none => exact Util.alookup_aset_self _ _ _

theorem getAccount_lookup_preserve (s : BlockchainState) (a x : String) (v : AccountState)
    (hx : Util.alookup s.accounts x = some v) :
    Util.alookup (getAccount s a).2.accounts x = some v := by
  unfold getAccount
  cases hv : Util.alookup s.accounts a with
  | some acc => exact hx
  | none =>
    by_cases hxa : x = a
    · subst hxa
      rw [hx] at hv
      exact Option.noConfusion hv
    · dsimp only
      rw [Util.alookup_aset_ne _ _ _ _ hxa]
      exact hx

theorem nonneg_of_lookup (s : BlockchainState) (k : String) (v : AccountState)
    (h : NonnegBalances s) (hv : Util.alookup s.accounts k = some v) : 0 ≤ v.balance :=
  h _ (Util.alookup_mem hv)

theorem nonneg_updateAccount (s : BlockchainState) (a : String) (f : AccountState → AccountState)
    (h : NonnegBalances s)
    (hf : ∀ v, Util.alookup s.accounts a = some v → 0 ≤ (f v).balance) :
    NonnegBalances (updateAccount s a f) := by
  unfold updateAccount
  cases hv : Util.alookup s.accounts a with
  | some acc =>
    intro p hp
    exact Util.mem_aset h (hf acc hv) p hp
  | none => exact h

theorem updateAccount_lookup_isSome (s : BlockchainState) (a : String)
    (f : AccountState → AccountState) (x : String)
    (hx : (Util.alookup s.accounts x).isSome = true) :
    (Util.alookup (updateAccount s a f).accounts x).isSome = true := by
  unfold updateAccount
  cases hv : Util.alookup s.accounts a with
  | some acc =>
    by_cases hxa : x = a
    · subst hxa
      dsimp only
      rw [Util.alookup_aset_self]
      rfl
    · dsimp only
      rw [Util.alookup_aset_ne _ _ _ _ hxa]
      exact hx
  | none => exact hx

theorem nonneg_transfer (s : BlockchainState) (f t : String) (amt : Rat)
    (hamt : 0 ≤ amt) (h : NonnegBalances s) :
    NonnegBalances (transfer s f t amt).2 := by
  unfold transfer
  rcases hg1 : getAccount s f with ⟨sender, s1⟩
  try dsimp only
  rcases hg2 : getAccount s1 t with ⟨recip, s2⟩
  try dsimp only
  have h1 : NonnegBalances s1 := by
    have h0 := nonneg_getAccount s f h
    rw [hg1] at h0
    exact h0
  have h2 : NonnegBalances s2 := by
    have h0 := nonneg_getAccount s1 t h1
    rw [hg2] at h0
    exact h0
  have hsb : 0 ≤ sender.balance := by
    have h0 := getAccount_fst_balance s f h
    rw [hg1] at h0
    exact h0
  have hlook1 : Util.alookup s1.accounts f = some sender := by
    have h0 := getAccount_lookup_self s f
    rw [hg1] at h0
    exact h0
  have hlook2 : Util.alookup s2.accounts f = some sender := by
    have h0 := getAccount_lookup_preserve s1 t f sender hlook1
    rw [hg2] at h0
    exact h0
  try dsimp only
  by_cases hlt : sender.balance < amt
  · rw [if_pos hlt]
    exact h2
  · rw [if_neg hlt]
    have h3 : NonnegBalances (updateAccount s2 f (fun a => { a with balance := a.balance - amt })) := by
      refine nonneg_updateAccount s2 f _ h2 ?_
      intro v hv
      rw [hlook2] at hv
      injection hv with hv
      subst hv
      dsimp only
      linarith
    have h4 : NonnegBalances (updateAccount
        (updateAccount s2 f (fun a => { a with balance := a.balance - amt })) t
        (fun a => { a with balance := a.balance + amt })) := by
      refine nonneg_updateAccount _ t _ h3 ?_
      intro v hv
      have hvb : 0 ≤ v.balance := nonneg_of_lookup _ t v h3 hv
      dsimp only
      linarith
    refine nonneg_updateAccount _ f _ h4 ?_
    intro v hv
    exact nonneg_of_lookup _ f v h4 hv

theorem nonneg_grantPermission (s : BlockchainState) (a p : String) (h : NonnegBalances s) :
    NonnegBalances (grantPermission s a p) := by
  unfold grantPermission
  rcases hg : getAccount s a with ⟨acc, s1⟩
  have h1 : NonnegBalances s1 := by
    have h0 := nonneg_getAccount s a h
    rw [hg] at h0
    exact h0
  dsimp only
  by_cases hc : acc.permissions.contains p
  · rw [if_pos hc]
    exact h1
  · rw [if_neg hc]
    refine nonneg_updateAccount s1 a _ h1 ?_
    intro v hv
    exact nonneg_of_lookup s1 a v h1 hv

theorem nonneg_revokePermission (s : BlockchainState) (a p : String) (h : NonnegBalances s) :
    NonnegBalances (revokePermission s a p) := by
  unfold revokePermission
  rcases hg : getAccount s a with ⟨acc, s1⟩
  have h1 : NonnegBalances s1 := by
    have h0 := nonneg_getAccount s a h
    rw [hg] at h0
    exact h0
  dsimp only
  by_cases hc : acc.permissions.contains p
  · rw [if_pos hc]
    refine nonneg_updateAccount s1 a _ h1 ?_
    intro v hv
    exact nonneg_of_lookup s1 a v h1 hv
  · rw [if_neg hc]
    exact h1

theorem nonneg_hasPermission (s : BlockchainState) (a p : String) (h : NonnegBalances s) :
    NonnegBalances (hasPermission s a p).2 := by
  unfold hasPermission
  rcases hg : getAccount s a with ⟨acc, s1⟩
  have h0 := nonneg_getAccount s a h
  rw [hg] at h0
  exact h0

end BlockchainState

namespace BlockchainState

theorem sum_getAccount (s : BlockchainState) (a : String) :
    sumBalances (getAccount s a).2 = sumBalances s := by
  unfold getAccount
  cases hv : Util.alookup s.accounts a with
  | some acc => rfl
  | none =>
    show sumBalances { s with accounts := Util.aset s.accounts a (mkAccount a) } = sumBalances s
    unfold sumBalances
    rw [Util.aset_not_mem _ _ _ hv]
    simp [mkAccount]

theorem sum_updateAccount_delta (s : BlockchainState) (a : String)
    (g : AccountState → AccountState) (d : Rat)
    (hex : (Util.alookup s.accounts a).isSome = true)
    (hdelta : ∀ v, (g v).balance = v.balance + d) :
    sumBalances (updateAccount s a g) = sumBalances s + d := by
  unfold updateAccount
  cases hv : Util.alookup s.accounts a with
  | none =>
    rw [hv] at hex
    exact Bool.noConfusion hex
  | some v =>
    show sumBalances { s with accounts := Util.aset s.accounts a (g v) } = sumBalances s + d
    unfold sumBalances
    rw [Util.sum_map_aset_some (fun acc => acc.balance) (g v) hv, hdelta v]
    ring

theorem transfer_sum (s : BlockchainState) (f t : String) (amt : Rat) :
    sumBalances (transfer s f t amt).2 = sumBalances s := by
  unfold transfer
  rcases hg1 : getAccount s f with ⟨sender, s1⟩
  try dsimp only
  rcases hg2 : getAccount s1 t with ⟨recip, s2⟩
  try dsimp only
  have e1 : sumBalances s1 = sumBalances s := by
    have h0 := sum_getAccount s f
    rw [hg1] at h0
    exact h0
  have e2 : sumBalances s2 = sumBalances s1 := by
    have h0 := sum_getAccount s1 t
    rw [hg2] at h0
    exact h0
  have hlook1 : Util.alookup s1.accounts f = some sender := by
    have h0 := getAccount_lookup_self s f
    rw [hg1] at h0
    exact h0
  have hlook2 : Util.alookup s2.accounts f = some sender := by
    have h0 := getAccount_lookup_preserve s1 t f sender hlook1
    rw [hg2] at h0
    exact h0
  have hlookt : Util.alookup s2.accounts t = some recip := by
    have h0 := getAccount_lookup_self s1 t
    rw [hg2] at h0
    exact h0
  try dsimp only
  by_cases hlt : sender.balance < amt
  · rw [if_pos hlt, e2, e1]
  · rw [if_neg hlt]
    have d1 : sumBalances (updateAccount s2 f
        (fun a => { a with balance := a.balance - amt })) = sumBalances s2 + (-amt) := by
      refine sum_updateAccount_delta s2 f _ (-amt) (by rw [hlook2]; rfl) ?_
      intro v
      dsimp only
      ring
    have hex2 : (Util.alookup (updateAccount s2 f
        (fun a => { a with balance := a.balance - amt })).accounts t).isSome = true := by
      refine updateAccount_lookup_isSome s2 f _ t ?_
      rw [hlookt]
      rfl
    have d2 : sumBalances (updateAccount (updateAccount s2 f
        (fun a => { a with balance := a.balance - amt })) t
        (fun a => { a with balance := a.balance + amt }))
        = sumBalances (updateAccount s2 f (fun a => { a with balance := a.balance - amt })) + amt := by
      refine sum_updateAccount_delta _ t _ amt hex2 ?_
      intro v
      dsimp only
    have hex3 : (Util.alookup (updateAccount (updateAccount s2 f
        (fun a => { a with balance := a.balance - amt })) t
        (fun a => { a with balance := a.balance + amt })).accounts f).isSome = true := by
      refine updateAccount_lookup_isSome _ t _ f ?_
      refine updateAccount_lookup_isSome s2 f _ f ?_
      rw [hlook2]
      rfl
    have d3 : sumBalances (updateAccount (updateAccount (updateAccount s2 f
        (fun a => { a with balance := a.balance - amt })) t
        (fun a => { a with balance := a.balance + amt })) f
        (fun a => { a with nonce := a.nonce + 1 }))
        = sumBalances (updateAccount (updateAccount s2 f
            (fun a => { a with balance := a.balance - amt })) t
            (fun a => { a with balance := a.balance + amt })) + 0 := by
      refine sum_updateAccount_delta _ f _ 0 hex3 ?_
      intro v
      dsimp only
      ring
    rw [d3, d2, d1, e2, e1]
    ring

end BlockchainState

namespace Engine

theorem addValidator_accounts (s : BlockchainState) (v : ValidatorState) :
    (BlockchainState.addValidator s v).accounts = s.accounts := rfl

theorem removeValidator_accounts (s : BlockchainState) (a : String) :
    (BlockchainState.removeValidator s a).accounts = s.accounts := by
  unfold BlockchainState.removeValidator
  cases Util.alookup s.validators a <;> rfl

theorem calculateAppHash_accounts (AH : BlockchainState → String) (s : BlockchainState) :
    (BlockchainState.calculateAppHash AH s).accounts = s.accounts := rfl

theorem updateValidator_accounts (s : BlockchainState) (a : String)
    (f : ValidatorState → ValidatorState) : (updateValidator s a f).accounts = s.accounts := by
  unfold updateValidator
  cases Util.alookup s.validators a <;> rfl

theorem nonneg_executeTransfer (st : BlockchainState) (t : Transaction)
    (ham : ∀ o ∈ t.outputs, ∀ a, o.amount = some a → (0:Rat) ≤ a)
    (h : NonnegBalances st) : NonnegBalances (executeTransfer st t).2 := by
  unfold executeTransfer
  cases hi : t.inputs with
  | nil => exact h
  | cons inp irest =>
    cases ho : t.outputs with
    | nil => exact h
    | cons outp orest =>
      cases ha : outp.amount with
      | none =>
        simp only [ha]
        exact BlockchainState.nonneg_getAccount _ _ (BlockchainState.nonneg_getAccount _ _ h)
      | some amt =>
        simp only [ha]
        have hamt : (0:Rat) ≤ amt := ham outp (by rw [ho]; exact List.mem_cons_self _ _) amt ha
        exact BlockchainState.nonneg_transfer st inp.fromAddress outp.toAddress amt hamt h

theorem nonneg_executeValidatorUpdate (st : BlockchainState) (t : Transaction)
    (h : NonnegBalances st) : NonnegBalances (executeValidatorUpdate st t).2 := by
  unfold executeValidatorUpdate
  cases hva : t.data.validatorAddress with
  | none => exact h
  | some addr =>
    cases hac : t.data.action with
    | none => exact h
    | some action =>
      dsimp only
      by_cases h1 : action = "add"
      · rw [if_pos h1]
        exact BlockchainState.nonneg_of_accounts_eq (addValidator_accounts _ _) h
      · rw [if_neg h1]
        by_cases h2 : action = "remove"
        · rw [if_pos h2]
          exact BlockchainState.nonneg_of_accounts_eq (removeValidator_accounts _ _) h
        · rw [if_neg h2]
          exact h

theorem nonneg_executePermissionGrant (now : Int) (st : BlockchainState)
    (ps : Option MLS.System) (t : Transaction) (h : NonnegBalances st) :
    NonnegBalances (executePermissionGrant now st ps t).2.1 := by
  unfold executePermissionGrant
  cases hta : t.data.targetAddress with
  | none => exact h
  | some target =>
    dsimp only
    have hst1 : ∀ st1 : BlockchainState,
        (st1 = st ∨ ∃ p, st1 = BlockchainState.grantPermission st target p) →
        NonnegBalances st1 := by
      rintro st1 (rfl | ⟨p, rfl⟩)
      · exact h
      · exact BlockchainState.nonneg_grantPermission st target p h
    cases hp : t.data.permission with
    | none =>
      cases ps with
      | none =>
        cases t.data.newLevel <;> exact h
      | some sys =>
        cases t.data.newLevel with
        | none => exact h
        | some lvl =>
          rcases MLS.promoteUser now sys t.sender target lvl with ⟨ok, sys1⟩
          exact h
    | some permission =>
      try dsimp only
      by_cases hac : t.data.action.getD "grant" = "grant"
      · rw [if_pos hac]
        cases ps with
        | none =>
          cases t.data.newLevel <;>
            exact BlockchainState.nonneg_grantPermission st target permission h
        | some sys =>
          cases t.data.newLevel with
          | none => exact BlockchainState.nonneg_grantPermission st target permission h
          | some lvl =>
            rcases MLS.promoteUser now sys t.sender target lvl with ⟨ok, sys1⟩
            exact BlockchainState.nonneg_grantPermission st target permission h
      · rw [if_neg hac]
        cases ps with
        | none => cases t.data.newLevel <;> exact h
        | some sys =>
          cases t.data.newLevel with
          | none => exact h
          | some lvl =>
            rcases MLS.promoteUser now sys t.sender target lvl with ⟨ok, sys1⟩
            exact h

theorem nonneg_executePermissionRevoke (st : BlockchainState) (t : Transaction)
    (h : NonnegBalances st) : NonnegBalances (executePermissionRevoke st t).2 := by
  unfold executePermissionRevoke
  cases hta : t.data.targetAddress with
  | none => exact h
  | some target =>
    dsimp only
    cases hp : t.data.permission with
    | none => exact h
    | some permission =>
      try dsimp only
      by_cases hac : t.data.action.getD "revoke" = "revoke"
      · rw [if_pos hac]
        exact BlockchainState.nonneg_revokePermission st target permission h
      · rw [if_neg hac]
        exact h

theorem nonneg_executeTx (now : Int) (st : BlockchainState) (ps : Option MLS.System)
    (t : Transaction)
    (ham : ∀ o ∈ t.outputs, ∀ a, o.amount = some a → (0:Rat) ≤ a)
    (h : NonnegBalances st) : NonnegBalances (executeTx now st ps t).2.1 := by
  unfold executeTx
  cases t.txType
  case transfer =>
    rcases he : executeTransfer st t with ⟨ok, s1⟩
    have h0 := nonneg_executeTransfer st t ham h
    rw [he] at h0
    exact h0
  case validatorUpdate =>
    rcases he : executeValidatorUpdate st t with ⟨ok, s1⟩
    have h0 := nonneg_executeValidatorUpdate st t h
    rw [he] at h0
    exact h0
  case permissionGrant => exact nonneg_executePermissionGrant now st ps t h
  case permissionRevoke =>
    rcases he : executePermissionRevoke st t with ⟨ok, s1⟩
    have h0 := nonneg_executePermissionRevoke st t h
    rw [he] at h0
    exact h0
  all_goals exact h

theorem nonneg_execLoop (now : Int) (st : BlockchainState) (ps : Option MLS.System)
    (txs : List Transaction)
    (ham : ∀ t ∈ txs, ∀ o ∈ t.outputs, ∀ a, o.amount = some a → (0:Rat) ≤ a)
    (h : NonnegBalances st) : NonnegBalances (execLoop now st ps txs).2.1 := by
  induction txs generalizing st ps with
  | nil => exact h
  | cons t rest ih =>
    have hamt : ∀ o ∈ t.outputs, ∀ a, o.amount = some a → (0:Rat) ≤ a :=
      ham t (List.mem_cons_self _ _)
    have hamr : ∀ t1 ∈ rest, ∀ o ∈ t1.outputs, ∀ a, o.amount = some a → (0:Rat) ≤ a :=
      fun t1 ht1 => ham t1 (List.mem_cons_of_mem _ ht1)
    unfold execLoop
    rcases he : executeTx now st ps t with ⟨ok, st1, ps1⟩
    have h1 : NonnegBalances st1 := by
      have h0 := nonneg_executeTx now st ps t hamt h
      rw [he] at h0
      exact h0
    cases ok with
    | true => exact ih st1 ps1 hamr h1
    | false => exact h1

end Engine

namespace Engine

theorem nonneg_checkTransactionPermissions (now : Int) (c : Chain) (t : Transaction)
    (h : NonnegBalances c.state) :
    NonnegBalances (checkTransactionPermissions now c t).2.state := by
  unfold checkTransactionPermissions
  cases hrp : requiredPermissionFor t.txType with
  | none =>
    dsimp only
    cases hps : c.permissionSystem with
    | none => exact h
    | some ps =>
      cases hsl : t.data.securityLevel with
      | none => exact h
      | some lvl =>
        rcases hgl : MLS.getUserLevelS now ps t.sender with ⟨ul, ps1⟩
        by_cases hul : ul < lvl
        · simp only [hgl, if_pos hul]
          exact h
        · simp only [hgl, if_neg hul]
          exact h
  | some p =>
    rcases hhp : BlockchainState.hasPermission c.state t.sender p with ⟨hp, s1⟩
    have h1 : NonnegBalances s1 := by
      have h0 := BlockchainState.nonneg_hasPermission c.state t.sender p h
      rw [hhp] at h0
      exact h0
    simp only [hhp]
    try dsimp only
    cases hp with
    | false =>
      rw [if_pos Bool.false_ne_true]
      exact h1
    | true =>
      rw [if_neg (not_not_intro rfl)]
      cases hps : c.permissionSystem with
      | none => exact h1
      | some ps =>
        cases hsl : t.data.securityLevel with
        | none => exact h1
        | some lvl =>
          rcases hgl : MLS.getUserLevelS now ps t.sender with ⟨ul, ps1⟩
          simp only [hgl]
          by_cases hul : ul < lvl
          · rw [if_pos hul]
            exact h1
          · rw [if_neg hul]
            exact h1

theorem nonneg_verifyTransaction (now : Int) (c : Chain) (t : Transaction)
    (h : NonnegBalances c.state) :
    NonnegBalances (verifyTransaction now c t).2.state := by
  unfold verifyTransaction
  rcases hga : BlockchainState.getAccount c.state t.sender with ⟨account, s1⟩
  have h1 : NonnegBalances s1 := by
    have h0 := BlockchainState.nonneg_getAccount c.state t.sender h
    rw [hga] at h0
    exact h0
  dsimp only
  by_cases hn : t.nonce < account.nonce
  · rw [if_pos hn]
    exact h1
  · rw [if_neg hn]
    exact nonneg_checkTransactionPermissions now { c with state := s1 } t h1

theorem nonneg_verifyTxs (now : Int) (c : Chain) (txs : List Transaction)
    (h : NonnegBalances c.state) :
    NonnegBalances (verifyTxs now c txs).2.state := by
  induction txs generalizing c with
  | nil => exact h
  | cons t rest ih =>
    unfold verifyTxs
    rcases hv : verifyTransaction now c t with ⟨ok, c1⟩
    have h1 : NonnegBalances c1.state := by
      have h0 := nonneg_verifyTransaction now c t h
      rw [hv] at h0
      exact h0
    cases ok with
    | false => exact h1
    | true =>
      dsimp only
      rw [if_neg (not_not_intro rfl)]
      exact ih c1 h1

theorem nonneg_verifyBlock (D : TxCore → String) (now : Int) (c : Chain) (b : Block)
    (h : NonnegBalances c.state) :
    NonnegBalances (verifyBlock D now c b).2.state := by
  unfold verifyBlock
  by_cases h1 : b.height ≠ (c.blocks.length : Int) - 1 + 1
  · rw [if_pos h1]
    exact h
  · rw [if_neg h1]
    cases hlast : c.blocks.getLast? with
    | none => exact h
    | some lastBlock =>
      dsimp only
      by_cases h2 : b.previousHash ≠ lastBlock.hash
      · rw [if_pos h2]
        exact h
      · rw [if_neg h2]
        by_cases h3 : Block.verifyMerkleRoot D b = true
        · rw [if_neg (not_not_intro h3)]
          exact nonneg_verifyTxs now c b.transactions h
        · rw [if_pos h3]
          exact h

theorem nonneg_addBlock (D : TxCore → String) (AH : BlockchainState → String)
    (cv : Block → BlockchainState → Bool) (now : Int) (c : Chain) (b : Block)
    (h : NonnegBalances c.state)
    (ham : ∀ t ∈ b.transactions, ∀ o ∈ t.outputs, ∀ a, o.amount = some a → (0:Rat) ≤ a) :
    NonnegBalances (addBlock D AH cv now c b).2.state := by
  unfold addBlock executeBlockTransactions
  rcases hvb : verifyBlock D now c b with ⟨ok1, c1⟩
  have h1 : NonnegBalances c1.state := by
    have h0 := nonneg_verifyBlock D now c b h
    rw [hvb] at h0
    exact h0
  try dsimp only
  cases ok1 with
  | false =>
    rw [if_pos Bool.false_ne_true]
    exact h1
  | true =>
    rw [if_neg (not_not_intro rfl)]
    by_cases hcv : cv b c1.state = true
    · rw [if_neg (not_not_intro hcv)]
      rcases hel : execLoop now c1.state c1.permissionSystem b.transactions with ⟨ok2, st2, ps2⟩
      have h2 : NonnegBalances st2 := by
        have h0 := nonneg_execLoop now c1.state c1.permissionSystem b.transactions ham h1
        rw [hel] at h0
        exact h0
      try dsimp only
      cases ok2 with
      | false =>
        rw [if_pos Bool.false_ne_true]
        exact h1
      | true =>
        rw [if_neg (not_not_intro rfl)]
        refine BlockchainState.nonneg_of_accounts_eq ?_ h2
        rw [updateValidator_accounts, calculateAppHash_accounts]
    · rw [if_pos hcv]
      exact h1

end Engine

unseal Rat.add Rat.sub in
/-- C6 counterexample: `transfer` never checks the sign of the amount, so a
`TRANSFER` of `-5` from a zero-balance permitted sender passes admission and
commits, leaving the recipient's balance at `-5 < 0` at the commit boundary,
although every balance was nonnegative beforehand. -/
theorem negative_balance_at_commit :
    NonnegBalances Fix.cNeg.state
    ∧ (Engine.addBlock Fix.D0 Fix.AH0 Fix.cvTrue 0 Fix.cNeg Fix.bNeg).1 = true
    ∧ (Util.alookup (Engine.addBlock Fix.D0 Fix.AH0 Fix.cvTrue 0 Fix.cNeg
          Fix.bNeg).2.state.accounts "bob").map (fun a => a.balance) = some (-5)
    ∧ ((-5 : Rat) < 0) := by
  constructor
  · intro p hp
    fin_cases hp
    norm_num
  · refine ⟨by decide, by decide, by norm_num⟩

/-- C6 amended: at every commit boundary balances stay nonnegative provided
every transaction output amount in the committed block is nonnegative (the
code never validates the sign; a negative amount drives a balance negative);
and the sum of all account balances is invariant under `transfer`, whether it
succeeds or returns false. -/
theorem balances_nonneg_and_sum_invariant :
    (∀ (D : TxCore → String) (AH : BlockchainState → String)
        (cv : Block → BlockchainState → Bool) (now : Int) (c : Engine.Chain) (b : Block),
      NonnegBalances c.state →
      (∀ t ∈ b.transactions, ∀ o ∈ t.outputs, ∀ a, o.amount = some a → (0:Rat) ≤ a) →
      NonnegBalances (Engine.addBlock D AH cv now c b).2.state)
    ∧ (∀ (s : BlockchainState) (f t : String) (a : Rat),
        BlockchainState.sumBalances (BlockchainState.transfer s f t a).2
          = BlockchainState.sumBalances s) :=
  ⟨fun D AH cv now c b h ham => Engine.nonneg_addBlock D AH cv now c b h ham,
   fun s f t a => BlockchainState.transfer_sum s f t a⟩

theorem balances_nonneg_and_sum_invariant_witness :
    NonnegBalances (Engine.addBlock Fix.D0 Fix.AH0 Fix.cvTrue 0 Fix.cNeg Fix.bOver).2.state
    ∧ BlockchainState.sumBalances
        (BlockchainState.transfer Fix.stXfer "al" "bob" 5).2
      = BlockchainState.sumBalances Fix.stXfer := by
  constructor
  · refine balances_nonneg_and_sum_invariant.1 Fix.D0 Fix.AH0 Fix.cvTrue 0 Fix.cNeg Fix.bOver
      ?_ ?_
    · intro p hp
      fin_cases hp
      norm_num
    · intro t ht o ho a ha
      fin_cases ht
      fin_cases ho
      injection ha with ha
      rw [← ha]
      norm_num
  · exact balances_nonneg_and_sum_invariant.2 Fix.stXfer "al" "bob" 5

namespace Merkle

theorem str_append_left_cancel {a b c : String} (h : a ++ b = a ++ c) : b = c := by
  have h1 := congrArg String.data h
  simp only [String.data_append] at h1
  exact String.ext (List.append_cancel_left h1)

theorem str_append_right_cancel {a b c : String} (h : a ++ c = b ++ c) : a = b := by
  have h1 := congrArg String.data h
  simp only [String.data_append] at h1
  exact String.ext (List.append_cancel_right h1)

theorem levelUp_length (H : String → String) :
    ∀ hs : List String, (levelUp H hs).length = (hs.length + 1) / 2
  | [] => by simp [levelUp]
  | [a] => by simp [levelUp]
  | a :: b :: rest => by
    simp only [levelUp, List.length_cons, levelUp_length H rest]
    omega

theorem levelUp_getD (H : String → String) :
    ∀ (hs : List String) (i : Nat), i < hs.length →
    (levelUp H hs).getD (i / 2) "" =
      (if i % 2 = 1 then H (hs.getD (i - 1) "" ++ hs.getD i "")
       else if i + 1 < hs.length then H (hs.getD i "" ++ hs.getD (i + 1) "")
       else H (hs.getD i "" ++ hs.getD i ""))
  | [], i, h => absurd h (by simp)
  | [a], 0, h => by simp [levelUp]
  | [a], k + 1, h => by simp at h
  | a :: b :: rest, 0, h => by
    rw [if_neg (by omega), if_pos (by simp)]
    simp [levelUp]
  | a :: b :: rest, 1, h => by
    rw [if_pos rfl]
    simp [levelUp]
  | a :: b :: rest, k + 2, h => by
    have hk : k < rest.length := by
      simp only [List.length_cons] at h
      omega
    have ih := levelUp_getD H rest k hk
    have e1 : (k + 2) / 2 = k / 2 + 1 := by omega
    rw [e1]
    show (H (a ++ b) :: levelUp H rest).getD (k / 2 + 1) "" = _
    rw [List.getD_cons_succ, ih]
    by_cases hodd : k % 2 = 1
    · rw [if_pos hodd, if_pos (by omega : (k + 2) % 2 = 1)]
      cases k with
      | zero => exact absurd hodd (by decide)
      | succ m =>
        have em : m + 1 - 1 = m := by omega
        have em2 : m + 1 + 2 - 1 = m + 2 := by omega
        rw [em, em2]
        simp [List.getD_cons_succ]
    · rw [if_neg hodd, if_neg (by omega : ¬ (k + 2) % 2 = 1)]
      by_cases hlt : k + 1 < rest.length
      · rw [if_pos hlt, if_pos (by simp only [List.length_cons]; omega)]
        simp [List.getD_cons_succ]
      · rw [if_neg hlt, if_neg (by simp only [List.length_cons]; omega)]
        simp [List.getD_cons_succ]

theorem foldProof_cons (H : String → String) (c : String) (p : String × Side)
    (ps : List (String × Side)) :
    foldProof H c (p :: ps)
      = foldProof H (match p.2 with
          | Side.left => H (p.1 ++ c)
          | Side.right => H (c ++ p.1)) ps := rfl

theorem proof_fold_root (H : String → String) :
    ∀ (fuel : Nat) (hs : List String) (i : Nat), i < hs.length → hs.length ≤ fuel →
    foldProof H (hs.getD i "") (proofGo H fuel hs i) = rootGo H fuel hs := by
  intro fuel
  induction fuel with
  | zero =>
    intro hs i h1 h2
    omega
  | succ fuel ih =>
    intro hs i h1 h2
    unfold proofGo rootGo
    by_cases hlen : hs.length ≤ 1
    · rw [if_pos hlen, if_pos hlen]
      have hi0 : i = 0 := by omega
      subst hi0
      rfl
    · rw [if_neg hlen, if_neg hlen]
      rw [foldProof_cons]
      have hstep : (match (proofStep hs i).2 with
          | Side.left => H ((proofStep hs i).1 ++ hs.getD i "")
          | Side.right => H (hs.getD i "" ++ (proofStep hs i).1))
          = (levelUp H hs).getD (i / 2) "" := by
        rw [levelUp_getD H hs i h1]
        unfold proofStep
        by_cases hodd : i % 2 = 1
        · rw [if_pos hodd, if_pos hodd]
        · rw [if_neg hodd, if_neg hodd]
          by_cases hlt : i + 1 < hs.length
          · rw [if_pos hlt, if_pos hlt]
          · rw [if_neg hlt, if_neg hlt]
      rw [hstep]
      refine ih (levelUp H hs) (i / 2) ?_ ?_
      · rw [levelUp_length]
        omega
      · rw [levelUp_length]
        omega

theorem foldProof_ne (H : String → String) (hinj : Function.Injective H) :
    ∀ (proof : List (String × Side)) (c1 c2 : String), c1 ≠ c2 →
    foldProof H c1 proof ≠ foldProof H c2 proof
  | [], c1, c2, h => h
  | (sib, side) :: ps, c1, c2, h => by
    rw [foldProof_cons, foldProof_cons]
    cases side with
    | left =>
      refine foldProof_ne H hinj ps _ _ ?_
      intro heq
      exact h (str_append_left_cancel (hinj heq))
    | right =>
      refine foldProof_ne H hinj ps _ _ ?_
      intro heq
      exact h (str_append_right_cancel (hinj heq))

theorem getD_map_of_lt (H : String → String) (l : List String) (i : Nat) (h : i < l.length) :
    (l.map H).getD i "" = H (l.getD i "") := by
  rw [List.getD_eq_getElem _ _ (by simpa using h), List.getD_eq_getElem _ _ h]
  simp

end Merkle

/-- C8: Merkle proof soundness and completeness: for every non-empty leaf
list, valid index `i`, and injective hash, `verify_proof(leaves[i],
get_proof(i), get_root())` is true, and `verify_proof(x, get_proof(i),
get_root())` is false for every `x ≠ leaves[i]` (injectivity embeds SHA-256's
collision-freeness assumption). -/
theorem merkle_proof_sound_complete (H : String → String) (leaves : List String) (i : Nat)
    (x : String) (hinj : Function.Injective H) (hi : i < leaves.length) :
    Merkle.verifyProof H (leaves.getD i "") (Merkle.getProof H leaves i)
      (Merkle.getRoot H leaves) = true
    ∧ (x ≠ leaves.getD i "" →
        Merkle.verifyProof H x (Merkle.getProof H leaves i) (Merkle.getRoot H leaves) = false) := by
  have hmi : i < (leaves.map H).length := by simpa using hi
  have hleaf : (leaves.map H).getD i "" = H (leaves.getD i "") :=
    Merkle.getD_map_of_lt H leaves i hi
  have hsound := Merkle.proof_fold_root H leaves.length (leaves.map H) i hmi (by simp)
  rw [hleaf] at hsound
  constructor
  · unfold Merkle.verifyProof Merkle.getProof Merkle.getRoot
    rw [hsound]
    exact beq_self_eq_true _
  · intro hx
    unfold Merkle.verifyProof Merkle.getProof Merkle.getRoot
    have hne : H x ≠ H (leaves.getD i "") := fun he => hx (hinj he)
    have hdiff := Merkle.foldProof_ne H hinj
      (Merkle.proofGo H leaves.length (leaves.map H) i) (H x) (H (leaves.getD i "")) hne
    rw [hsound] at hdiff
    exact beq_eq_false_iff_ne.mpr hdiff

theorem merkle_proof_sound_complete_witness :
    Merkle.verifyProof Fix.Hinj "bb" (Merkle.getProof Fix.Hinj ["aa", "bb", "cc"] 1)
      (Merkle.getRoot Fix.Hinj ["aa", "bb", "cc"]) = true
    ∧ Merkle.verifyProof Fix.Hinj "zz" (Merkle.getProof Fix.Hinj ["aa", "bb", "cc"] 1)
      (Merkle.getRoot Fix.Hinj ["aa", "bb", "cc"]) = false := by
  have hinj : Function.Injective Fix.Hinj :=
    fun a b h => Merkle.str_append_left_cancel h
  have h := merkle_proof_sound_complete Fix.Hinj ["aa", "bb", "cc"] 1 "zz" hinj (by decide)
  have e : (["aa", "bb", "cc"] : List String).getD 1 "" = "bb" := rfl
  rw [e] at h
  exact ⟨h.1, h.2 (by decide)⟩

set_option maxRecDepth 100000 in
/-- C7 counterexample: `build_merkle_tree_from_hashes([])` does NOT return
SHA256(""): it substitutes the empty digest as a leaf of a `MerkleTree`, whose
constructor hashes every leaf, so the root is SHA256(SHA256("")) — the kernel
evaluates both digests and finds them distinct. -/
theorem merkle_empty_hashes_root_ne :
    Merkle.buildFromHashesRoot [] ≠ SHA256.sha256Hex "" := by decide

/-- C7: empty-input Merkle roots as implemented: `Block._calculate_merkle_root`
returns SHA256("") for a block with no transactions, exactly as claimed; but
`build_merkle_tree_from_hashes([])` re-hashes the substituted empty digest as a
leaf and yields SHA256(SHA256("")) instead. -/
theorem merkle_empty_root_values :
    Merkle.calculateMerkleRoot SHA256.sha256Hex [] = SHA256.sha256Hex ""
    ∧ Merkle.buildFromHashesRoot [] = SHA256.sha256Hex (SHA256.sha256Hex "") :=
  ⟨rfl, rfl⟩
